import Mathlib

/-!
Verification of the key-value configuration / state components of the
`deps-analyzer` sample repository.

The development shallowly embeds:

* `config::ConfigManager` (src/example/config/config.cc): an in-memory
  `std::map<std::string, std::string>`, loaded from / saved to JSON text via
  the nlohmann single-header library, with `std::stoi`-based type
  re-inference on export (`ToJson`) and kind-based decoding on import
  (`LoadFromJson`), plus `SetValue` / `GetValue` / `SetInt` / `GetInt`.
* `core::StateManager` (src/example/core/state.cc): an in-memory
  `std::map<std::string, std::string>` persisted in a line-oriented
  `key=value` format.

`std::map<std::string, _>` is embedded as an association list sorted
strictly by key (lexicographic order on characters, which for UTF-8 encoded
`std::string` agrees with byte-wise `operator<`).  The relevant behavior of
the nlohmann library (`json::parse`, `json::dump(2)`, `items()`,
`get<int>()`) is embedded by executable Lean functions mirroring the
library's documented semantics; machine `int` is embedded as `Int` with an
explicit reduction modulo 2^32 where the C++ code truncates.
-/

/-! ## Association lists with the `std::map` interface -/

/-- State of a `std::map<std::string, α>`: an association list kept sorted
strictly by key. -/
abbrev SMap (α : Type) := List (String × α)

/-- String `<` decided by direct list comparison (kernel-reducible, unlike
the iterator-based decision procedure), so that concrete map states can be
evaluated inside proofs.  `String` order is lexicographic on characters,
which for UTF-8 encoded `std::string` agrees with byte-wise `operator<`. -/
instance (priority := 2000) strDecidableLT (a b : String) : Decidable (a < b) :=
  decidable_of_iff (a.toList < b.toList) String.lt_iff_toList_lt.symm

/-- `m[key] = value`: insert or overwrite, keeping keys sorted (`std::map`
keeps its entries in `operator<` order). -/
def mapInsert {α : Type} (k : String) (v : α) : SMap α → SMap α
  | [] => [(k, v)]
  | (k', v') :: rest =>
    if k < k' then (k, v) :: (k', v') :: rest
    else if k' < k then (k', v') :: mapInsert k v rest
    else (k, v) :: rest

/-- `m.find(key)`: the stored value, if present. -/
def mapFind {α : Type} (k : String) : SMap α → Option α
  | [] => none
  | (k', v') :: rest => if k' = k then some v' else mapFind k rest

/-- The invariant of a `std::map` state: keys strictly increasing. -/
abbrev SortedKeys {α : Type} (l : SMap α) : Prop :=
  l.Pairwise (fun a b => a.1 < b.1)

theorem mapFind_mapInsert {α : Type} (k k' : String) (v : α) (st : SMap α) :
    mapFind k (mapInsert k' v st) = if k' = k then some v else mapFind k st := by
  induction st with
  | nil =>
    simp only [mapInsert, mapFind]
  | cons p rest ih =>
    obtain ⟨k₀, v₀⟩ := p
    simp only [mapInsert]
    rcases lt_trichotomy k' k₀ with h1 | h1 | h1
    · rw [if_pos h1]
      simp only [mapFind]
    · subst h1
      rw [if_neg (lt_irrefl k'), if_neg (lt_irrefl k')]
      simp only [mapFind]
      by_cases h : k' = k <;> simp [h]
    · rw [if_neg (not_lt.mpr (le_of_lt h1)), if_pos h1]
      simp only [mapFind]
      by_cases h0 : k₀ = k
      · have hk : k' ≠ k := by rw [← h0]; exact (ne_of_gt h1)
        simp [h0, hk]
      · simp [h0, ih]

theorem getLast?_cons_or {α : Type} (a : α) (l : List α) :
    (a :: l).getLast? = (l.getLast? <|> some a) := by
  induction l generalizing a with
  | nil => rfl
  | cons b t ih =>
    rw [List.getLast?_cons_cons, ih b]
    cases ht : t.getLast? <;> simp [ht]

/-- Looking a key up after a left fold of insertions: the last inserted
binding for that key wins, falling back to the initial map. -/
theorem mapFind_foldl_mapInsert {α : Type} (k : String) (ps : List (String × α))
    (st : SMap α) :
    mapFind k (ps.foldl (fun a p => mapInsert p.1 p.2 a) st) =
      (((ps.filter (fun p => p.1 = k)).getLast?.map Prod.snd) <|> mapFind k st) := by
  induction ps generalizing st with
  | nil => simp
  | cons p rest ih =>
    by_cases hp : p.1 = k
    · rw [List.foldl_cons, ih, List.filter_cons_of_pos (by simpa using hp),
        getLast?_cons_or]
      rw [mapFind_mapInsert, if_pos hp]
      cases hl : (rest.filter (fun p => p.1 = k)).getLast? <;> simp [hl]
    · rw [List.foldl_cons, ih, List.filter_cons_of_neg (by simpa using hp),
        mapFind_mapInsert, if_neg hp]

/-- Fold a list into a map, inserting the binding `f` extracts from each
element (when any). -/
def foldInsertOpt {α β : Type} (f : β → Option (String × α)) (xs : List β)
    (st : SMap α) : SMap α :=
  xs.foldl (fun a x =>
    match f x with
    | some p => mapInsert p.1 p.2 a
    | none => a) st

/-- A fold that inserts only when `f` yields a binding equals the plain
insertion fold over the `filterMap`. -/
theorem foldInsertOpt_eq_foldl_filterMap {α β : Type} (f : β → Option (String × α))
    (xs : List β) (st : SMap α) :
    foldInsertOpt f xs st =
      (xs.filterMap f).foldl (fun a p => mapInsert p.1 p.2 a) st := by
  induction xs generalizing st with
  | nil => rfl
  | cons x t ih =>
    rw [foldInsertOpt, List.foldl_cons, List.filterMap_cons]
    cases h : f x
    · exact ih st
    · rename_i p
      exact ih (mapInsert p.1 p.2 st)

theorem mapInsert_append_of_lt {α : Type} (k : String) (v : α) (st : SMap α)
    (h : ∀ p ∈ st, p.1 < k) : mapInsert k v st = st ++ [(k, v)] := by
  induction st with
  | nil => rfl
  | cons p rest ih =>
    have hp : p.1 < k := h p (List.mem_cons_self p rest)
    simp only [mapInsert]
    rw [if_neg (not_lt.mpr (le_of_lt hp)), if_pos hp,
      ih (fun q hq => h q (List.mem_cons_of_mem p hq))]
    rfl

/-- Folding insertions of strictly increasing keys over the empty map
reproduces the bindings in order (keys kept, values transformed by `f`). -/
theorem foldl_mapInsert_sorted_aux {α β : Type} (f : String × α → β) :
    ∀ (ps : SMap α) (acc : SMap β), SortedKeys ps →
      (∀ q ∈ acc, ∀ p ∈ ps, q.1 < p.1) →
      ps.foldl (fun a p => mapInsert p.1 (f p) a) acc =
        acc ++ ps.map (fun p => (p.1, f p)) := by
  intro ps
  induction ps with
  | nil => intro acc _ _; simp
  | cons p rest ih =>
    intro acc hs hacc
    have hins : mapInsert p.1 (f p) acc = acc ++ [(p.1, f p)] :=
      mapInsert_append_of_lt _ _ _
        (fun q hq => hacc q hq p (List.mem_cons_self p rest))
    have hrest : SortedKeys rest := (List.pairwise_cons.mp hs).2
    have hlt : ∀ b ∈ rest, p.1 < b.1 := (List.pairwise_cons.mp hs).1
    rw [List.foldl_cons, hins, ih (acc ++ [(p.1, f p)]) hrest ?later]
    · simp
    case later =>
      intro q hq r hr
      rcases List.mem_append.mp hq with h | h
      · exact hacc q h r (List.mem_cons_of_mem p hr)
      · have : q = (p.1, f p) := by simpa using h
        rw [this]
        exact hlt r hr

theorem foldl_mapInsert_sorted {α β : Type} (f : String × α → β) (ps : SMap α)
    (hs : SortedKeys ps) :
    ps.foldl (fun a p => mapInsert p.1 (f p) a) [] =
      ps.map (fun p => (p.1, f p)) := by
  simpa using foldl_mapInsert_sorted_aux f ps [] hs (by simp)

theorem mapFind_some_mem {α : Type} {k : String} {v : α} :
    ∀ {l : SMap α}, mapFind k l = some v → (k, v) ∈ l := by
  intro l
  induction l with
  | nil => intro h; cases h
  | cons p rest ih =>
    intro h
    simp only [mapFind] at h
    split at h
    · rename_i heq
      cases h
      rw [← heq]
      exact List.mem_cons_self p rest
    · exact List.mem_cons_of_mem p (ih h)

theorem mapFind_head_le {α : Type} {k k' : String} {v : α} {t : SMap α} {w : α}
    (hs : SortedKeys ((k, v) :: t)) (h : mapFind k' ((k, v) :: t) = some w) :
    k ≤ k' := by
  simp only [mapFind] at h
  split at h
  · rename_i heq; exact le_of_eq heq
  · have hmem := mapFind_some_mem h
    have := (List.pairwise_cons.mp hs).1 _ hmem
    exact le_of_lt this

theorem mapFind_tail_self {α : Type} {k : String} {v : α} {t : SMap α}
    (hs : SortedKeys ((k, v) :: t)) : mapFind k t = none := by
  cases h : mapFind k t with
  | none => rfl
  | some w =>
    have hmem := mapFind_some_mem h
    have := (List.pairwise_cons.mp hs).1 _ hmem
    exact absurd this (lt_irrefl k)

/-- Two `std::map` states with the same lookup function are the same state:
sorted association lists are extensional. -/
theorem sorted_mapFind_ext {α : Type} :
    ∀ (s1 s2 : SMap α), SortedKeys s1 → SortedKeys s2 →
      (∀ k, mapFind k s1 = mapFind k s2) → s1 = s2 := by
  intro s1
  induction s1 with
  | nil =>
    intro s2 _ _ h
    cases s2 with
    | nil => rfl
    | cons p t =>
      have := h p.1
      simp [mapFind] at this
  | cons p t1 ih =>
    intro s2 hs1 hs2 h
    obtain ⟨k1, v1⟩ := p
    cases s2 with
    | nil =>
      have := h k1
      simp [mapFind] at this
    | cons q t2 =>
      obtain ⟨k2, v2⟩ := q
      have hf1 : mapFind k1 ((k2, v2) :: t2) = some v1 := by
        rw [← h k1]; simp [mapFind]
      have hf2 : mapFind k2 ((k1, v1) :: t1) = some v2 := by
        rw [h k2]; simp [mapFind]
      have hle1 : k2 ≤ k1 := mapFind_head_le hs2 hf1
      have hle2 : k1 ≤ k2 := mapFind_head_le hs1 hf2
      have hk : k1 = k2 := le_antisymm hle2 hle1
      subst hk
      have hv : v1 = v2 := by
        simp [mapFind] at hf2
        exact hf2
      subst hv
      have htail : ∀ k, mapFind k t1 = mapFind k t2 := by
        intro k
        by_cases hk : k1 = k
        · subst hk
          rw [mapFind_tail_self hs1, mapFind_tail_self hs2]
        · have := h k
          simpa [mapFind, hk] using this
      rw [ih t2 (List.pairwise_cons.mp hs1).2 (List.pairwise_cons.mp hs2).2 htail]

theorem mem_mapInsert {α : Type} {p : String × α} {k : String} {v : α} :
    ∀ {st : SMap α}, p ∈ mapInsert k v st → p = (k, v) ∨ p ∈ st := by
  intro st
  induction st with
  | nil => intro h; simpa [mapInsert] using h
  | cons q rest ih =>
    obtain ⟨k0, v0⟩ := q
    intro h
    simp only [mapInsert] at h
    split at h
    · rcases List.mem_cons.mp h with h | h
      · exact Or.inl h
      · exact Or.inr h
    · split at h
      · rcases List.mem_cons.mp h with h | h
        · exact Or.inr (List.mem_cons.mpr (Or.inl h))
        · rcases ih h with h | h
          · exact Or.inl h
          · exact Or.inr (List.mem_cons_of_mem _ h)
      · rcases List.mem_cons.mp h with h | h
        · exact Or.inl h
        · exact Or.inr (List.mem_cons_of_mem _ h)

/-- `std::map` insertion preserves the sortedness invariant. -/
theorem sortedKeys_mapInsert {α : Type} (k : String) (v : α) :
    ∀ (st : SMap α), SortedKeys st → SortedKeys (mapInsert k v st) := by
  intro st
  induction st with
  | nil => intro _; simp [mapInsert, SortedKeys]
  | cons q rest ih =>
    obtain ⟨k0, v0⟩ := q
    intro hs
    have hrest : SortedKeys rest := (List.pairwise_cons.mp hs).2
    have hlt : ∀ b ∈ rest, k0 < b.1 := (List.pairwise_cons.mp hs).1
    simp only [mapInsert]
    split
    · rename_i hk
      refine List.pairwise_cons.mpr ⟨?_, hs⟩
      intro b hb
      rcases List.mem_cons.mp hb with h | h
      · rw [h]; exact hk
      · exact lt_trans hk (hlt b h)
    · split
      · rename_i hk0
        refine List.pairwise_cons.mpr ⟨?_, ih hrest⟩
        intro b hb
        rcases mem_mapInsert hb with h | h
        · rw [h]; exact hk0
        · exact hlt b h
      · rename_i h1 h2
        have hk : k = k0 := le_antisymm (not_lt.mp h2) (not_lt.mp h1)
        subst hk
        exact List.pairwise_cons.mpr ⟨hlt, hrest⟩

/-- On a sorted map, filtering the bindings of a key yields at most the one
binding `mapFind` returns. -/
theorem filter_getLast?_sorted {α : Type} (k : String) :
    ∀ (ps : SMap α), SortedKeys ps →
      ((ps.filter (fun p => p.1 = k)).getLast?.map Prod.snd) = mapFind k ps := by
  intro ps
  induction ps with
  | nil => intro _; rfl
  | cons p rest ih =>
    intro hs
    have hrest : SortedKeys rest := (List.pairwise_cons.mp hs).2
    have hlt : ∀ b ∈ rest, p.1 < b.1 := (List.pairwise_cons.mp hs).1
    by_cases hp : p.1 = k
    · have hnil : rest.filter (fun q => q.1 = k) = [] := by
        rw [List.filter_eq_nil_iff]
        intro q hq
        have : p.1 < q.1 := hlt q hq
        simp only [decide_eq_true_eq]
        intro hqk
        rw [hp] at this
        rw [hqk] at this
        exact lt_irrefl k this
      rw [List.filter_cons_of_pos (by simpa using hp), getLast?_cons_or, hnil]
      simp [mapFind, hp]
    · rw [List.filter_cons_of_neg (by simpa using hp), ih hrest]
      simp [mapFind, hp]

/-! ## Decimal numerals: `std::to_string`, `std::stoi`, `static_cast<int>` -/

/-- The decimal digit character for `d % 10`. -/
def digitChar (d : Nat) : Char :=
  match d with
  | 0 => '0' | 1 => '1' | 2 => '2' | 3 => '3' | 4 => '4'
  | 5 => '5' | 6 => '6' | 7 => '7' | 8 => '8' | _ => '9'

def natDigitsAux : Nat → Nat → List Char
  | 0, _ => []
  | fuel + 1, n => if n = 0 then [] else natDigitsAux fuel (n / 10) ++ [digitChar (n % 10)]

/-- The decimal digit string of a natural number, most significant first. -/
def natDigits (n : Nat) : List Char := if n = 0 then ['0'] else natDigitsAux n n

/-- `std::to_string` on a non-negative value. -/
def natToString (n : Nat) : String := ⟨natDigits n⟩

/-- `std::to_string(int)` (and the decimal rendering `json::dump` uses for
integer values). -/
def intToString (i : Int) : String :=
  if i < 0 then ⟨'-' :: natDigits i.natAbs⟩ else ⟨natDigits i.natAbs⟩

def digitVal (c : Char) : Nat := c.toNat - 48

/-- The value of a decimal digit string (as accumulated by `strtol`). -/
def digitsVal (ds : List Char) : Nat := ds.foldl (fun a c => 10 * a + digitVal c) 0

theorem digitsVal_from (ds : List Char) :
    ∀ (acc : Nat), ds.foldl (fun a c => 10 * a + digitVal c) acc =
      acc * 10 ^ ds.length + digitsVal ds := by
  induction ds with
  | nil => intro acc; simp [digitsVal]
  | cons c t ih =>
    intro acc
    show t.foldl _ (10 * acc + digitVal c) = _
    rw [ih (10 * acc + digitVal c)]
    have hd : digitsVal (c :: t) = (digitVal c) * 10 ^ t.length + digitsVal t := by
      show t.foldl _ (10 * 0 + digitVal c) = _
      rw [ih (10 * 0 + digitVal c)]
      ring_nf
    rw [hd]
    simp [List.length_cons]
    ring

theorem digitsVal_append_singleton (ds : List Char) (c : Char) :
    digitsVal (ds ++ [c]) = 10 * digitsVal ds + digitVal c := by
  show (ds ++ [c]).foldl (fun a c => 10 * a + digitVal c) 0 = _
  rw [List.foldl_append]
  show (10 * digitsVal ds + digitVal c : Nat) = _
  rfl

theorem digitVal_digitChar (d : Nat) (h : d < 10) : digitVal (digitChar d) = d := by
  interval_cases d <;> rfl

theorem isDigit_digitChar (d : Nat) : (digitChar d).isDigit = true := by
  match d with
  | 0 | 1 | 2 | 3 | 4 | 5 | 6 | 7 | 8 => rfl
  | n + 9 => rfl

theorem digitChar_ne_zero (d : Nat) (h0 : d ≠ 0) (h : d < 10) : digitChar d ≠ '0' := by
  interval_cases d <;> simp_all <;> decide

theorem natDigitsAux_zero (fuel : Nat) : natDigitsAux fuel 0 = [] := by
  cases fuel <;> rfl

theorem natDigitsAux_spec :
    ∀ (fuel n : Nat), 0 < n → n ≤ fuel →
      digitsVal (natDigitsAux fuel n) = n ∧
      natDigitsAux fuel n ≠ [] ∧
      (∀ c ∈ natDigitsAux fuel n, c.isDigit = true) ∧
      (∀ c, (natDigitsAux fuel n).head? = some c → c ≠ '0') := by
  intro fuel
  induction fuel with
  | zero => intro n h1 h2; omega
  | succ fuel ih =>
    intro n h1 h2
    have hne : ¬ n = 0 := by omega
    simp only [natDigitsAux, if_neg hne]
    have hmod : n % 10 < 10 := Nat.mod_lt n (by norm_num)
    by_cases hq : n / 10 = 0
    · have hn10 : n < 10 := by omega
      rw [hq, natDigitsAux_zero]
      refine ⟨?_, by simp, ?_, ?_⟩
      · simp only [List.nil_append, digitsVal, List.foldl_cons, List.foldl_nil]
        rw [digitVal_digitChar _ hmod]
        omega
      · intro c hc
        simp only [List.nil_append, List.mem_singleton] at hc
        rw [hc]; exact isDigit_digitChar _
      · intro c hc
        simp only [List.nil_append, List.head?_cons, Option.some.injEq] at hc
        rw [← hc]
        exact digitChar_ne_zero _ (by omega) hmod
    · have hqpos : 0 < n / 10 := Nat.pos_of_ne_zero hq
      have hqle : n / 10 ≤ fuel := by
        have := Nat.div_lt_self h1 (show 1 < 10 by norm_num)
        omega
      obtain ⟨hv, hne', hdig, hhead⟩ := ih (n / 10) hqpos hqle
      refine ⟨?_, by simp [hne'], ?_, ?_⟩
      · rw [digitsVal_append_singleton, hv, digitVal_digitChar _ hmod]
        omega
      · intro c hc
        rcases List.mem_append.mp hc with h | h
        · exact hdig c h
        · simp only [List.mem_singleton] at h
          rw [h]; exact isDigit_digitChar _
      · intro c hc
        cases he : natDigitsAux fuel (n / 10) with
        | nil => exact absurd he hne'
        | cons d t =>
          rw [he] at hc
          simp only [List.cons_append, List.head?_cons, Option.some.injEq] at hc
          apply hhead
          rw [he, ← hc]
          rfl

theorem digitsVal_natDigits (n : Nat) : digitsVal (natDigits n) = n := by
  by_cases h : n = 0
  · subst h; rfl
  · simp only [natDigits, if_neg h]
    exact (natDigitsAux_spec n n (Nat.pos_of_ne_zero h) le_rfl).1

theorem natDigits_ne_nil (n : Nat) : natDigits n ≠ [] := by
  by_cases h : n = 0
  · subst h; simp [natDigits]
  · simp only [natDigits, if_neg h]
    exact (natDigitsAux_spec n n (Nat.pos_of_ne_zero h) le_rfl).2.1

theorem natDigits_all_digits (n : Nat) : ∀ c ∈ natDigits n, c.isDigit = true := by
  by_cases h : n = 0
  · subst h; intro c hc; simp [natDigits] at hc; rw [hc]; rfl
  · simp only [natDigits, if_neg h]
    exact (natDigitsAux_spec n n (Nat.pos_of_ne_zero h) le_rfl).2.2.1

theorem natDigits_head_ne_zero (n : Nat) (hn : n ≠ 0) :
    ∀ c, (natDigits n).head? = some c → c ≠ '0' := by
  simp only [natDigits, if_neg hn]
  exact (natDigitsAux_spec n n (Nat.pos_of_ne_zero hn) le_rfl).2.2.2

theorem natToString_injective : Function.Injective natToString := by
  intro a b h
  have hd : natDigits a = natDigits b := congrArg String.data h
  have := digitsVal_natDigits a
  rw [hd, digitsVal_natDigits] at this
  exact this.symm

theorem takeWhile_eq_self_of_all {p : Char → Bool} :
    ∀ (l : List Char), (∀ c ∈ l, p c = true) → l.takeWhile p = l := by
  intro l
  induction l with
  | nil => intro _; rfl
  | cons c t ih =>
    intro h
    rw [List.takeWhile_cons, if_pos (h c (List.mem_cons_self c t)),
      ih (fun d hd => h d (List.mem_cons_of_mem c hd))]

theorem takeWhile_span {p : Char → Bool} :
    ∀ (ds rest : List Char), (∀ c ∈ ds, p c = true) →
      (∀ c, rest.head? = some c → p c = false) →
      (ds ++ rest).takeWhile p = ds ∧ (ds ++ rest).dropWhile p = rest := by
  intro ds
  induction ds with
  | nil =>
    intro rest _ hr
    cases rest with
    | nil => exact ⟨rfl, rfl⟩
    | cons c t =>
      have := hr c rfl
      simp only [List.nil_append, List.takeWhile_cons, List.dropWhile_cons, this]
      exact ⟨rfl, rfl⟩
  | cons d t ih =>
    intro rest hds hr
    have hd : p d = true := hds d (List.mem_cons_self d t)
    obtain ⟨h1, h2⟩ := ih rest (fun c hc => hds c (List.mem_cons_of_mem d hc)) hr
    constructor
    · rw [List.cons_append, List.takeWhile_cons, if_pos hd, h1]
    · rw [List.cons_append, List.dropWhile_cons, hd]
      simpa using h2

/-! ### `std::stoi` -/

/-- C-locale `isspace`, as skipped by `strtol`. -/
def isCSpace (c : Char) : Bool :=
  c = ' ' || c = '\t' || c = '\n' || c = Char.ofNat 11 || c = Char.ofNat 12 || c = '\r'

def signVal (neg : Bool) (m : Nat) : Int := if neg then -(m : Int) else (m : Int)

/-- The digit-consuming tail of `std::stoi`: after whitespace and sign, take
the maximal digit prefix; fail if it is empty (`invalid_argument`) or the
signed value does not fit in a 32-bit `int` (`out_of_range`). -/
def stoiDigits (neg : Bool) (body : List Char) : Option Int :=
  if body.takeWhile Char.isDigit = [] then none
  else if signVal neg (digitsVal (body.takeWhile Char.isDigit)) < -2147483648 ∨
      2147483647 < signVal neg (digitsVal (body.takeWhile Char.isDigit)) then none
  else some (signVal neg (digitsVal (body.takeWhile Char.isDigit)))

def stoiAfterSpace : List Char → Option Int
  | [] => none
  | c :: r =>
    if c = '-' then stoiDigits true r
    else if c = '+' then stoiDigits false r
    else stoiDigits false (c :: r)

def stoiParse (cs : List Char) : Option Int := stoiAfterSpace (cs.dropWhile isCSpace)

/-- `std::stoi(s)` in base 10 with the position output discarded; `none`
stands for a thrown exception (`config.cc` catches every kind with
`catch (...)`). -/
def stoi (s : String) : Option Int := stoiParse s.data

theorem isCSpace_false_of_isDigit {c : Char} (h : c.isDigit = true) :
    isCSpace c = false := by
  by_cases h1 : c = ' '
  · subst h1; exact absurd h (by decide)
  by_cases h2 : c = '\t'
  · subst h2; exact absurd h (by decide)
  by_cases h3 : c = '\n'
  · subst h3; exact absurd h (by decide)
  by_cases h4 : c = Char.ofNat 11
  · subst h4; exact absurd h (by decide)
  by_cases h5 : c = Char.ofNat 12
  · subst h5; exact absurd h (by decide)
  by_cases h6 : c = '\r'
  · subst h6; exact absurd h (by decide)
  simp [isCSpace, h1, h2, h3, h4, h5, h6]

theorem ne_minus_of_isDigit {c : Char} (h : c.isDigit = true) : c ≠ '-' := by
  intro he; subst he; exact absurd h (by decide)

theorem ne_plus_of_isDigit {c : Char} (h : c.isDigit = true) : c ≠ '+' := by
  intro he; subst he; exact absurd h (by decide)

theorem stoiDigits_all_digits (neg : Bool) (ds : List Char) (hne : ds ≠ [])
    (hall : ∀ c ∈ ds, c.isDigit = true) :
    stoiDigits neg ds =
      if signVal neg (digitsVal ds) < -2147483648 ∨
          2147483647 < signVal neg (digitsVal ds) then none
      else some (signVal neg (digitsVal ds)) := by
  unfold stoiDigits
  rw [takeWhile_eq_self_of_all ds hall, if_neg hne]

theorem dropWhile_isCSpace_of_head_digit {c : Char} {t : List Char}
    (h : c.isDigit = true) : (c :: t).dropWhile isCSpace = c :: t := by
  rw [List.dropWhile_cons, isCSpace_false_of_isDigit h]
  simp

theorem natDigits_head_digit (n : Nat) :
    ∀ c t, natDigits n = c :: t → c.isDigit = true := by
  intro c t h
  apply natDigits_all_digits n
  rw [h]
  exact List.mem_cons_self c t

/-- `std::stoi ∘ std::to_string` on `Int`: succeeds exactly on values that
fit a 32-bit `int`, and is then the identity. -/
theorem stoi_intToString (n : Int) :
    stoi (intToString n) =
      if -2147483648 ≤ n ∧ n ≤ 2147483647 then some n else none := by
  obtain ⟨c, t, hct⟩ : ∃ c t, natDigits n.natAbs = c :: t := by
    cases h : natDigits n.natAbs with
    | nil => exact absurd h (natDigits_ne_nil _)
    | cons c t => exact ⟨c, t, rfl⟩
  have hcdig : c.isDigit = true := natDigits_head_digit _ c t hct
  have hsd : ∀ neg : Bool, stoiDigits neg (natDigits n.natAbs) =
      if signVal neg (digitsVal (natDigits n.natAbs)) < -2147483648 ∨
          2147483647 < signVal neg (digitsVal (natDigits n.natAbs)) then none
      else some (signVal neg (digitsVal (natDigits n.natAbs))) :=
    fun neg => stoiDigits_all_digits neg _ (natDigits_ne_nil _) (natDigits_all_digits _)
  by_cases hneg : n < 0
  · have hdata : (intToString n).data = '-' :: natDigits n.natAbs := by
      simp [intToString, hneg]
    have hsp : isCSpace '-' = false := by decide
    have hdw : ('-' :: natDigits n.natAbs).dropWhile isCSpace
        = '-' :: natDigits n.natAbs := by
      rw [List.dropWhile_cons, hsp]
      simp
    have hstep : stoi (intToString n) = stoiDigits true (natDigits n.natAbs) := by
      rw [stoi, hdata, stoiParse, hdw, stoiAfterSpace, if_pos rfl]
    rw [hstep, hsd true, digitsVal_natDigits]
    have hv : signVal true n.natAbs = n := by
      show -(n.natAbs : Int) = n
      omega
    rw [hv]
    by_cases hr : -2147483648 ≤ n ∧ n ≤ 2147483647
    · rw [if_neg (show ¬(n < -2147483648 ∨ 2147483647 < n) by omega), if_pos hr]
    · rw [if_pos (show (n < -2147483648 ∨ 2147483647 < n) by omega), if_neg hr]
  · have hdata : (intToString n).data = natDigits n.natAbs := by
      simp [intToString, hneg]
    have hstep : stoi (intToString n) = stoiDigits false (natDigits n.natAbs) := by
      rw [stoi, hdata, stoiParse, hct, dropWhile_isCSpace_of_head_digit hcdig,
        stoiAfterSpace, if_neg (ne_minus_of_isDigit hcdig),
        if_neg (ne_plus_of_isDigit hcdig), ← hct]
    rw [hstep, hsd false, digitsVal_natDigits]
    have hv : signVal false n.natAbs = n := by
      show (n.natAbs : Int) = n
      omega
    rw [hv]
    by_cases hr : -2147483648 ≤ n ∧ n ≤ 2147483647
    · rw [if_neg (show ¬(n < -2147483648 ∨ 2147483647 < n) by omega), if_pos hr]
    · rw [if_pos (show (n < -2147483648 ∨ 2147483647 < n) by omega), if_neg hr]

theorem stoiDigits_some_range {neg : Bool} {body : List Char} {n : Int}
    (h : stoiDigits neg body = some n) : -2147483648 ≤ n ∧ n ≤ 2147483647 := by
  unfold stoiDigits at h
  split at h
  · cases h
  · split at h
    · cases h
    · rename_i hcond
      cases h
      omega

theorem stoiAfterSpace_some_range {cs : List Char} {n : Int}
    (h : stoiAfterSpace cs = some n) : -2147483648 ≤ n ∧ n ≤ 2147483647 := by
  cases cs with
  | nil => cases h
  | cons c r =>
    rw [stoiAfterSpace] at h
    split at h
    · exact stoiDigits_some_range h
    · split at h
      · exact stoiDigits_some_range h
      · exact stoiDigits_some_range h

theorem stoi_some_range {s : String} {n : Int} (h : stoi s = some n) :
    -2147483648 ≤ n ∧ n ≤ 2147483647 :=
  stoiAfterSpace_some_range h

/-- `static_cast<int>` from a wider integer: reduction to 32-bit
two's-complement. -/
def toInt32 (n : Int) : Int := (n + 2147483648) % 4294967296 - 2147483648

theorem toInt32_of_range {n : Int} (h1 : -2147483648 ≤ n) (h2 : n ≤ 2147483647) :
    toInt32 n = n := by
  unfold toInt32
  rw [Int.emod_eq_of_lt (by omega) (by omega)]
  omega

/-! ## JSON values (the nlohmann document model) -/

/-- A parsed nlohmann JSON value.  `int` covers both `number_integer` and
`number_unsigned` (everything `is_number_integer()` accepts); `num` is a
floating-point literal, kept as raw text since the program never reads such
values. -/
inductive JVal where
  | null
  | bool (b : Bool)
  | int (n : Int)
  | num (raw : String)
  | str (s : String)
  | arr (elems : List JVal)
  | obj (fields : List (String × JVal))

def qchar : Char := Char.ofNat 34
def bslash : Char := Char.ofNat 92
def lbrace : Char := Char.ofNat 123
def rbrace : Char := Char.ofNat 125

def hexDigitChar (d : Nat) : Char :=
  if d < 10 then digitChar d
  else match d with
    | 10 => 'a' | 11 => 'b' | 12 => 'c' | 13 => 'd' | 14 => 'e' | _ => 'f'

/-- `nlohmann::detail::serializer::dump_escaped` (with `ensure_ascii`
off): escape the quote, the backslash, the short control escapes, and any
other char below 0x20 as `\u00xx`; all other characters verbatim. -/
def escapeChar (c : Char) : List Char :=
  if c = qchar then [bslash, qchar]
  else if c = bslash then [bslash, bslash]
  else if c = Char.ofNat 8 then [bslash, 'b']
  else if c = Char.ofNat 12 then [bslash, 'f']
  else if c = '\n' then [bslash, 'n']
  else if c = '\r' then [bslash, 'r']
  else if c = '\t' then [bslash, 't']
  else if c.toNat < 32 then
    [bslash, 'u', '0', '0', hexDigitChar (c.toNat / 16), hexDigitChar (c.toNat % 16)]
  else [c]

def escapeList : List Char → List Char
  | [] => []
  | c :: t => escapeChar c ++ escapeList t

def hexVal? (c : Char) : Option Nat :=
  if '0' ≤ c ∧ c ≤ '9' then some (c.toNat - 48)
  else if 'a' ≤ c ∧ c ≤ 'f' then some (c.toNat - 87)
  else if 'A' ≤ c ∧ c ≤ 'F' then some (c.toNat - 55)
  else none

def pushChar (c : Char) (res : Option (List Char × List Char)) :
    Option (List Char × List Char) :=
  match res with
  | some (s, rest) => some (c :: s, rest)
  | none => none

/-- The lexer for a JSON string body (cursor already past the opening
quote): returns the decoded characters and the input after the closing
quote.  Rejects raw control characters, bad escapes, bad `\uXXXX` units and
unpaired surrogates, as nlohmann's lexer does. -/
def parseStringBody : Nat → List Char → Option (List Char × List Char)
  | 0, _ => none
  | _ + 1, [] => none
  | fuel + 1, c :: r =>
    if c = qchar then some ([], r)
    else if c = bslash then
      match r with
      | [] => none
      | e :: r2 =>
        if e = qchar then pushChar qchar (parseStringBody fuel r2)
        else if e = bslash then pushChar bslash (parseStringBody fuel r2)
        else if e = '/' then pushChar '/' (parseStringBody fuel r2)
        else if e = 'b' then pushChar (Char.ofNat 8) (parseStringBody fuel r2)
        else if e = 'f' then pushChar (Char.ofNat 12) (parseStringBody fuel r2)
        else if e = 'n' then pushChar '\n' (parseStringBody fuel r2)
        else if e = 'r' then pushChar '\r' (parseStringBody fuel r2)
        else if e = 't' then pushChar '\t' (parseStringBody fuel r2)
        else if e = 'u' then
          match r2 with
          | h1 :: h2 :: h3 :: h4 :: r3 =>
            match hexVal? h1, hexVal? h2, hexVal? h3, hexVal? h4 with
            | some a, some b, some c1, some d =>
              if 55296 ≤ ((a * 16 + b) * 16 + c1) * 16 + d ∧
                  ((a * 16 + b) * 16 + c1) * 16 + d ≤ 56319 then
                match r3 with
                | b2 :: u2 :: g1 :: g2 :: g3 :: g4 :: r4 =>
                  if b2 = bslash ∧ u2 = 'u' then
                    match hexVal? g1, hexVal? g2, hexVal? g3, hexVal? g4 with
                    | some a2, some b3, some c2, some d2 =>
                      if 56320 ≤ ((a2 * 16 + b3) * 16 + c2) * 16 + d2 ∧
                          ((a2 * 16 + b3) * 16 + c2) * 16 + d2 ≤ 57343 then
                        pushChar (Char.ofNat (65536 +
                          ((((a * 16 + b) * 16 + c1) * 16 + d) - 55296) * 1024 +
                          (((a2 * 16 + b3) * 16 + c2) * 16 + d2 - 56320)))
                          (parseStringBody fuel r4)
                      else none
                    | _, _, _, _ => none
                  else none
                | _ => none
              else if 56320 ≤ ((a * 16 + b) * 16 + c1) * 16 + d ∧
                  ((a * 16 + b) * 16 + c1) * 16 + d ≤ 57343 then none
              else pushChar (Char.ofNat (((a * 16 + b) * 16 + c1) * 16 + d))
                (parseStringBody fuel r3)
            | _, _, _, _ => none
          | _ => none
        else none
    else if c.toNat < 32 then none
    else pushChar c (parseStringBody fuel r)

/-- Integer part of a JSON number: `0`, or a nonzero digit followed by more
digits; a leading zero may not be followed by a digit. -/
def intDigits? : List Char → Option (List Char × List Char)
  | [] => none
  | c :: r =>
    if c = '0' then
      match r with
      | d :: _ => if d.isDigit then none else some (['0'], r)
      | [] => some (['0'], [])
    else if c.isDigit then some ((c :: r).takeWhile Char.isDigit, (c :: r).dropWhile Char.isDigit)
    else none

def parseFracPart : List Char → Option (Bool × List Char)
  | [] => some (false, [])
  | c :: r =>
    if c = '.' then
      if r.takeWhile Char.isDigit = [] then none
      else some (true, r.dropWhile Char.isDigit)
    else some (false, c :: r)

def parseExpPart : List Char → Option (Bool × List Char)
  | [] => some (false, [])
  | c :: r =>
    if c = 'e' ∨ c = 'E' then
      match r with
      | [] => none
      | s :: r2 =>
        if s = '+' ∨ s = '-' then
          if r2.takeWhile Char.isDigit = [] then none
          else some (true, r2.dropWhile Char.isDigit)
        else
          if (s :: r2).takeWhile Char.isDigit = [] then none
          else some (true, (s :: r2).dropWhile Char.isDigit)
    else some (false, c :: r)

/-- nlohmann's number scanning and classification after the optional minus
sign: a literal with a fraction or exponent is a float; otherwise it is an
integer if it fits `int64_t` (negative) / `uint64_t` (non-negative), else
it falls back to a float (kept as the raw consumed text). -/
def parseNumBody (neg : Bool) (orig cs1 : List Char) : Option (JVal × List Char) :=
  match intDigits? cs1 with
  | none => none
  | some (ds, rest0) =>
    match parseFracPart rest0 with
    | none => none
    | some (hasFrac, rest1) =>
      match parseExpPart rest1 with
      | none => none
      | some (hasExp, rest2) =>
        if hasFrac || hasExp then
          some (JVal.num ⟨orig.take (orig.length - rest2.length)⟩, rest2)
        else if neg then
          if digitsVal ds ≤ 9223372036854775808 then
            some (JVal.int (-(digitsVal ds : Int)), rest2)
          else some (JVal.num ⟨orig.take (orig.length - rest2.length)⟩, rest2)
        else
          if digitsVal ds < 18446744073709551616 then
            some (JVal.int (digitsVal ds : Int), rest2)
          else some (JVal.num ⟨orig.take (orig.length - rest2.length)⟩, rest2)

def parseNumber (cs : List Char) : Option (JVal × List Char) :=
  match cs with
  | '-' :: cs1 => parseNumBody true ('-' :: cs1) cs1
  | cs1 => parseNumBody false cs1 cs1

def jsonWs (c : Char) : Bool := c = ' ' || c = '\t' || c = '\n' || c = '\r'

def skipWs (cs : List Char) : List Char := cs.dropWhile jsonWs

/-- Parser modes: a value, or the inside of an object / array after `{`,
`[` or a separator, carrying the members collected so far (objects collect
through `mapInsert`, matching `std::map<std::string, json>`: sorted keys,
later duplicates overwrite). -/
inductive PMode where
  | value
  | objFirst
  | objNext (acc : List (String × JVal))
  | arrFirst
  | arrNext (acc : List JVal)

/-- The value production of nlohmann's grammar, with `rec` standing for
the recursive entry point. -/
def valueBody (rec : PMode → List Char → Option (JVal × List Char))
    (cs : List Char) : Option (JVal × List Char) :=
  match cs with
  | [] => none
  | c :: r =>
    if c = lbrace then rec PMode.objFirst r
    else if c = '[' then rec PMode.arrFirst r
    else if c = qchar then
      (parseStringBody (r.length + 1) r).map (fun sr => (JVal.str ⟨sr.1⟩, sr.2))
    else if c = 't' then
      match r with
      | 'r' :: 'u' :: 'e' :: r2 => some (JVal.bool true, r2)
      | _ => none
    else if c = 'f' then
      match r with
      | 'a' :: 'l' :: 's' :: 'e' :: r2 => some (JVal.bool false, r2)
      | _ => none
    else if c = 'n' then
      match r with
      | 'u' :: 'l' :: 'l' :: r2 => some (JVal.null, r2)
      | _ => none
    else if c = '-' ∨ c.isDigit then parseNumber (c :: r)
    else none

/-- After a member's key string: the colon, then the value. -/
def afterKey (rec : PMode → List Char → Option (JVal × List Char))
    (k : List Char) : List Char → Option (List Char × JVal × List Char)
  | ':' :: r3 => (rec PMode.value (skipWs r3)).map (fun vr => (k, vr.1, vr.2))
  | _ => none

/-- One `"key": value` member, starting at the key's opening quote; yields
the decoded key, the parsed value and the remaining input. -/
def memberBody (rec : PMode → List Char → Option (JVal × List Char))
    (r1 : List Char) : Option (List Char × JVal × List Char) :=
  (parseStringBody (r1.length + 1) r1).bind (fun kr => afterKey rec kr.1 (skipWs kr.2))

def objFirstBody (rec : PMode → List Char → Option (JVal × List Char))
    (cs : List Char) : Option (JVal × List Char) :=
  match skipWs cs with
  | [] => none
  | c :: r =>
    if c = rbrace then some (JVal.obj [], r)
    else if c = qchar then
      (memberBody rec r).bind (fun kvr =>
        rec (PMode.objNext (mapInsert ⟨kvr.1⟩ kvr.2.1 [])) kvr.2.2)
    else none

def objNextBody (rec : PMode → List Char → Option (JVal × List Char))
    (acc : List (String × JVal)) (cs : List Char) : Option (JVal × List Char) :=
  match skipWs cs with
  | [] => none
  | c :: r =>
    if c = rbrace then some (JVal.obj acc, r)
    else if c = ',' then
      match skipWs r with
      | c1 :: r1 =>
        if c1 = qchar then
          (memberBody rec r1).bind (fun kvr =>
            rec (PMode.objNext (mapInsert ⟨kvr.1⟩ kvr.2.1 acc)) kvr.2.2)
        else none
      | [] => none
    else none

def arrFirstBody (rec : PMode → List Char → Option (JVal × List Char))
    (cs : List Char) : Option (JVal × List Char) :=
  match skipWs cs with
  | [] => none
  | c :: r =>
    if c = ']' then some (JVal.arr [], r)
    else
      (rec PMode.value (c :: r)).bind (fun vr => rec (PMode.arrNext [vr.1]) vr.2)

def arrNextBody (rec : PMode → List Char → Option (JVal × List Char))
    (acc : List JVal) (cs : List Char) : Option (JVal × List Char) :=
  match skipWs cs with
  | [] => none
  | c :: r =>
    if c = ']' then some (JVal.arr acc, r)
    else if c = ',' then
      (rec PMode.value (skipWs r)).bind (fun vr =>
        rec (PMode.arrNext (acc ++ [vr.1])) vr.2)
    else none

/-- Recursive descent over nlohmann's JSON grammar, fueled; `json_parse`
supplies more fuel than any input can consume. -/
def parseCore : Nat → PMode → List Char → Option (JVal × List Char)
  | 0, _, _ => none
  | fuel + 1, PMode.value, cs => valueBody (fun m cs2 => parseCore fuel m cs2) cs
  | fuel + 1, PMode.objFirst, cs =>
    objFirstBody (fun m cs2 => parseCore fuel m cs2) cs
  | fuel + 1, PMode.objNext acc, cs =>
    objNextBody (fun m cs2 => parseCore fuel m cs2) acc cs
  | fuel + 1, PMode.arrFirst, cs =>
    arrFirstBody (fun m cs2 => parseCore fuel m cs2) cs
  | fuel + 1, PMode.arrNext acc, cs =>
    arrNextBody (fun m cs2 => parseCore fuel m cs2) acc cs

/-- `nlohmann::json::parse(s)`: the whole input must be one JSON value
surrounded by whitespace; `none` models a thrown `parse_error`. -/
def json_parse (s : String) : Option JVal :=
  match parseCore ((skipWs s.data).length + 1) PMode.value (skipWs s.data) with
  | some (v, rest) => if skipWs rest = [] then some v else none
  | none => none

/-! ## ConfigManager (src/example/config/config.cc) -/

/-- `j.items()`: key/value pairs of an object, `std::to_string(index)` keyed
elements of an array, nothing for `null`, and a single `""`-keyed item for
any other primitive. -/
def arrItems (n : Nat) : List JVal → List (String × JVal)
  | [] => []
  | v :: rest => (natToString n, v) :: arrItems (n + 1) rest

def jsonItems : JVal → List (String × JVal)
  | JVal.obj fields => fields
  | JVal.arr elems => arrItems 0 elems
  | JVal.null => []
  | v => [("", v)]

/-- The body of `LoadFromJson`'s loop for one item: strings verbatim,
integers via `std::to_string(value.get<int>())` (a truncating
`static_cast<int>`), booleans as `"true"`/`"false"`, every other kind
skipped. -/
def decodeField? : JVal → Option String
  | JVal.str s => some s
  | JVal.int n => some (intToString (toInt32 n))
  | JVal.bool b => some (if b then "true" else "false")
  | _ => none

def decodePair? (kv : String × JVal) : Option (String × String) :=
  (decodeField? kv.2).map (fun s => (kv.1, s))

/-- The decoding loop of `LoadFromJson`, run on a fresh map (the code calls
`config_.clear()` right after a successful parse). -/
def decodeItems (j : JVal) : SMap String :=
  foldInsertOpt decodePair? (jsonItems j) []

/-- `ConfigManager::LoadFromJson`: parse, then clear and repopulate; a parse
error is thrown before `clear()` runs, so the catch branch returns `false`
with the member map untouched. -/
def LoadFromJson (json_str : String) (config : SMap String) : Bool × SMap String :=
  match json_parse json_str with
  | none => (false, config)
  | some j => (true, decodeItems j)

/-- The per-entry classification in `ConfigManager::ToJson`: try
`std::stoi`; on any exception fall back to the string itself. -/
def encodeValue (v : String) : JVal :=
  match stoi v with
  | some n => JVal.int n
  | none => JVal.str v

/-- `json::dump` of one scalar (only integers and strings are ever stored
by `ToJson`). -/
def dumpScalarChars : JVal → List Char
  | JVal.int n => (intToString n).data
  | JVal.str s => qchar :: (escapeList s.data ++ [qchar])
  | _ => []

def dumpFieldChars (p : String × String) : List Char :=
  qchar :: (escapeList p.1.data ++ qchar :: ':' :: ' ' :: dumpScalarChars (encodeValue p.2))

def joinFieldsChars : List (String × String) → List Char
  | [] => []
  | [p] => ' ' :: ' ' :: dumpFieldChars p
  | p :: ps => (' ' :: ' ' :: dumpFieldChars p) ++ ',' :: '\n' :: joinFieldsChars ps

/-- `ConfigManager::ToJson`: build a `json` object (entries in the map's
key order; `std::stoi`-classified values) and `dump(2)` it.  An empty map
leaves the default-constructed `json` as `null`. -/
def ToJson (config : SMap String) : String :=
  match config with
  | [] => "null"
  | ps => ⟨lbrace :: '\n' :: (joinFieldsChars ps ++ '\n' :: [rbrace])⟩

/-- `ConfigManager::SetValue`. -/
def SetValue (key value : String) (config : SMap String) : SMap String :=
  mapInsert key value config

/-- `ConfigManager::GetValue`. -/
def GetValue (key default_value : String) (config : SMap String) : String :=
  match mapFind key config with
  | some v => v
  | none => default_value

/-- `ConfigManager::SetInt`: stores `std::to_string(value)`. -/
def SetInt (key : String) (value : Int) (config : SMap String) : SMap String :=
  mapInsert key (intToString value) config

/-- `ConfigManager::GetInt`: `std::stoi` on the stored string, any
exception swallowed into the caller's default. -/
def GetInt (key : String) (default_value : Int) (config : SMap String) : Int :=
  match mapFind key config with
  | some v =>
    match stoi v with
    | some n => n
    | none => default_value
  | none => default_value

/-! ## StateManager (src/example/core/state.cc) -/

/-- One line of `StateManager::LoadFromFile`: `line.find('=')` and the two
`substr` calls — the text before the first `=` is the key, everything after
it the value; a line with no `=` produces nothing. -/
def stateLineKV (line : String) : Option (String × String) :=
  match line.data.dropWhile (fun c => c ≠ '=') with
  | _ :: post => some (⟨line.data.takeWhile (fun c => c ≠ '=')⟩, ⟨post⟩)
  | [] => none

/-- `std::getline` over a string stream: segments before each newline, plus
a final unterminated segment when the content does not end in a newline. -/
def getlinesAux : Nat → List Char → List String
  | 0, _ => []
  | _ + 1, [] => []
  | fuel + 1, cs =>
    match cs.dropWhile (fun c => c ≠ '\n') with
    | _ :: r2 => (⟨cs.takeWhile (fun c => c ≠ '\n')⟩ : String) :: getlinesAux fuel r2
    | [] => [⟨cs.takeWhile (fun c => c ≠ '\n')⟩]

def getlines (content : String) : List String :=
  getlinesAux (content.data.length + 1) content.data

/-- The parsing loop of `StateManager::LoadFromFile` (after `state_.clear()`):
insert the split of every line that contains `=`. -/
def loadState (content : String) : SMap String :=
  foldInsertOpt stateLineKV (getlines content) []

/-- `StateManager::LoadFromFile`, with the `util::ReadFile` result passed
in as `none` (read failed) or `some content`. -/
def LoadFromFile (readResult : Option String) (state : SMap String) :
    Bool × SMap String :=
  match readResult with
  | none => (false, state)
  | some content => (true, loadState content)

/-! ## Character facts and the string-escape round trip -/

theorem isDigit_toNat {c : Char} (h : c.isDigit = true) :
    48 ≤ c.toNat ∧ c.toNat ≤ 57 := by
  simp [Char.isDigit] at h
  exact ⟨h.1, h.2⟩

theorem isDigit_ne {c d : Char} (h : c.isDigit = true)
    (hd : d.toNat < 48 ∨ 57 < d.toNat) : c ≠ d := by
  intro he
  subst he
  obtain ⟨h1, h2⟩ := isDigit_toNat h
  omega

theorem jsonWs_cases {c : Char} (h : jsonWs c = true) :
    c = ' ' ∨ c = '\t' ∨ c = '\n' ∨ c = '\r' := by
  simp [jsonWs] at h
  tauto

theorem jsonWs_false_of_isDigit {c : Char} (h : c.isDigit = true) :
    jsonWs c = false := by
  cases hj : jsonWs c with
  | false => rfl
  | true =>
    rcases jsonWs_cases hj with h1 | h1 | h1 | h1 <;> subst h1 <;>
      exact absurd h (by decide)

theorem skipWs_cons_false {c : Char} {r : List Char} (h : jsonWs c = false) :
    skipWs (c :: r) = c :: r := by
  rw [skipWs, List.dropWhile_cons, h]
  simp

theorem skipWs_cons_true {c : Char} {r : List Char} (h : jsonWs c = true) :
    skipWs (c :: r) = skipWs r := by
  rw [skipWs, List.dropWhile_cons, h]
  rfl

theorem hexVal?_hexDigitChar (d : Nat) (h : d < 16) :
    hexVal? (hexDigitChar d) = some d := by
  interval_cases d <;> decide

theorem pushChar_some (c : Char) (s rest : List Char) :
    pushChar c (some (s, rest)) = some (c :: s, rest) := rfl

/-- Parsing back an escaped string body: `dump_escaped` output followed by
the closing quote decodes to the original characters. -/
theorem parseStringBody_escape :
    ∀ (s : List Char), ∀ (rest : List Char) (fuel : Nat),
      (escapeList s).length + rest.length < fuel →
      parseStringBody fuel (escapeList s ++ qchar :: rest) = some (s, rest) := by
  intro s
  induction s with
  | nil =>
    intro rest fuel hf
    cases fuel with
    | zero => omega
    | succ f => rfl
  | cons c t ih =>
    intro rest fuel hf
    by_cases h1 : c = qchar
    · subst h1
      have he : escapeList (qchar :: t) = bslash :: qchar :: escapeList t := by
        rw [escapeList, show escapeChar qchar = [bslash, qchar] from by decide]
        rfl
      rw [he] at hf ⊢
      simp only [List.length_cons] at hf
      cases fuel with
      | zero => omega
      | succ f =>
        have hstep : parseStringBody (f + 1)
            (bslash :: qchar :: (escapeList t ++ qchar :: rest)) =
            pushChar qchar (parseStringBody f (escapeList t ++ qchar :: rest)) := rfl
        rw [show (bslash :: qchar :: escapeList t) ++ qchar :: rest =
          bslash :: qchar :: (escapeList t ++ qchar :: rest) from by simp, hstep,
          ih rest f (by omega), pushChar_some]
    · by_cases h2 : c = bslash
      · subst h2
        have he : escapeList (bslash :: t) = bslash :: bslash :: escapeList t := by
          rw [escapeList, show escapeChar bslash = [bslash, bslash] from by decide]
          rfl
        rw [he] at hf ⊢
        simp only [List.length_cons] at hf
        cases fuel with
        | zero => omega
        | succ f =>
          have hstep : parseStringBody (f + 1)
              (bslash :: bslash :: (escapeList t ++ qchar :: rest)) =
              pushChar bslash (parseStringBody f (escapeList t ++ qchar :: rest)) := rfl
          rw [show (bslash :: bslash :: escapeList t) ++ qchar :: rest =
            bslash :: bslash :: (escapeList t ++ qchar :: rest) from by simp, hstep,
            ih rest f (by omega), pushChar_some]
      · by_cases h3 : c = Char.ofNat 8
        · subst h3
          have he : escapeList (Char.ofNat 8 :: t) = bslash :: 'b' :: escapeList t := by
            rw [escapeList, show escapeChar (Char.ofNat 8) = [bslash, 'b'] from by decide]
            rfl
          rw [he] at hf ⊢
          simp only [List.length_cons] at hf
          cases fuel with
          | zero => omega
          | succ f =>
            have hstep : parseStringBody (f + 1)
                (bslash :: 'b' :: (escapeList t ++ qchar :: rest)) =
                pushChar (Char.ofNat 8)
                  (parseStringBody f (escapeList t ++ qchar :: rest)) := rfl
            rw [show (bslash :: 'b' :: escapeList t) ++ qchar :: rest =
              bslash :: 'b' :: (escapeList t ++ qchar :: rest) from by simp, hstep,
              ih rest f (by omega), pushChar_some]
        · by_cases h4 : c = Char.ofNat 12
          · subst h4
            have he : escapeList (Char.ofNat 12 :: t) = bslash :: 'f' :: escapeList t := by
              rw [escapeList,
                show escapeChar (Char.ofNat 12) = [bslash, 'f'] from by decide]
              rfl
            rw [he] at hf ⊢
            simp only [List.length_cons] at hf
            cases fuel with
            | zero => omega
            | succ f =>
              have hstep : parseStringBody (f + 1)
                  (bslash :: 'f' :: (escapeList t ++ qchar :: rest)) =
                  pushChar (Char.ofNat 12)
                    (parseStringBody f (escapeList t ++ qchar :: rest)) := rfl
              rw [show (bslash :: 'f' :: escapeList t) ++ qchar :: rest =
                bslash :: 'f' :: (escapeList t ++ qchar :: rest) from by simp, hstep,
                ih rest f (by omega), pushChar_some]
          · by_cases h5 : c = '\n'
            · subst h5
              have he : escapeList ('\n' :: t) = bslash :: 'n' :: escapeList t := by
                rw [escapeList, show escapeChar '\n' = [bslash, 'n'] from by decide]
                rfl
              rw [he] at hf ⊢
              simp only [List.length_cons] at hf
              cases fuel with
              | zero => omega
              | succ f =>
                have hstep : parseStringBody (f + 1)
                    (bslash :: 'n' :: (escapeList t ++ qchar :: rest)) =
                    pushChar '\n'
                      (parseStringBody f (escapeList t ++ qchar :: rest)) := rfl
                rw [show (bslash :: 'n' :: escapeList t) ++ qchar :: rest =
                  bslash :: 'n' :: (escapeList t ++ qchar :: rest) from by simp, hstep,
                  ih rest f (by omega), pushChar_some]
            · by_cases h6 : c = '\r'
              · subst h6
                have he : escapeList ('\r' :: t) = bslash :: 'r' :: escapeList t := by
                  rw [escapeList, show escapeChar '\r' = [bslash, 'r'] from by decide]
                  rfl
                rw [he] at hf ⊢
                simp only [List.length_cons] at hf
                cases fuel with
                | zero => omega
                | succ f =>
                  have hstep : parseStringBody (f + 1)
                      (bslash :: 'r' :: (escapeList t ++ qchar :: rest)) =
                      pushChar '\r'
                        (parseStringBody f (escapeList t ++ qchar :: rest)) := rfl
                  rw [show (bslash :: 'r' :: escapeList t) ++ qchar :: rest =
                    bslash :: 'r' :: (escapeList t ++ qchar :: rest) from by simp, hstep,
                    ih rest f (by omega), pushChar_some]
              · by_cases h7 : c = '\t'
                · subst h7
                  have he : escapeList ('\t' :: t) = bslash :: 't' :: escapeList t := by
                    rw [escapeList, show escapeChar '\t' = [bslash, 't'] from by decide]
                    rfl
                  rw [he] at hf ⊢
                  simp only [List.length_cons] at hf
                  cases fuel with
                  | zero => omega
                  | succ f =>
                    have hstep : parseStringBody (f + 1)
                        (bslash :: 't' :: (escapeList t ++ qchar :: rest)) =
                        pushChar '\t'
                          (parseStringBody f (escapeList t ++ qchar :: rest)) := rfl
                    rw [show (bslash :: 't' :: escapeList t) ++ qchar :: rest =
                      bslash :: 't' :: (escapeList t ++ qchar :: rest) from by simp, hstep,
                      ih rest f (by omega), pushChar_some]
                · by_cases h8 : c.toNat < 32
                  · have he : escapeList (c :: t) = bslash :: 'u' :: '0' :: '0' ::
                        hexDigitChar (c.toNat / 16) :: hexDigitChar (c.toNat % 16) ::
                        escapeList t := by
                      rw [escapeList, escapeChar, if_neg h1, if_neg h2, if_neg h3,
                        if_neg h4, if_neg h5, if_neg h6, if_neg h7, if_pos h8]
                      rfl
                    rw [he] at hf ⊢
                    simp only [List.length_cons] at hf
                    cases fuel with
                    | zero => omega
                    | succ f =>
                      have hstep : parseStringBody (f + 1)
                          (bslash :: 'u' :: '0' :: '0' ::
                            hexDigitChar (c.toNat / 16) :: hexDigitChar (c.toNat % 16) ::
                            (escapeList t ++ qchar :: rest)) =
                          (match hexVal? '0', hexVal? '0',
                              hexVal? (hexDigitChar (c.toNat / 16)),
                              hexVal? (hexDigitChar (c.toNat % 16)) with
                          | some a, some b, some c1, some d =>
                            if 55296 ≤ ((a * 16 + b) * 16 + c1) * 16 + d ∧
                                ((a * 16 + b) * 16 + c1) * 16 + d ≤ 56319 then
                              match escapeList t ++ qchar :: rest with
                              | b2 :: u2 :: g1 :: g2 :: g3 :: g4 :: r4 =>
                                if b2 = bslash ∧ u2 = 'u' then
                                  match hexVal? g1, hexVal? g2, hexVal? g3, hexVal? g4 with
                                  | some a2, some b3, some c2, some d2 =>
                                    if 56320 ≤ ((a2 * 16 + b3) * 16 + c2) * 16 + d2 ∧
                                        ((a2 * 16 + b3) * 16 + c2) * 16 + d2 ≤ 57343 then
                                      pushChar (Char.ofNat (65536 +
                                        ((((a * 16 + b) * 16 + c1) * 16 + d) - 55296) * 1024 +
                                        (((a2 * 16 + b3) * 16 + c2) * 16 + d2 - 56320)))
                                        (parseStringBody f r4)
                                    else none
                                  | _, _, _, _ => none
                                else none
                              | _ => none
                            else if 56320 ≤ ((a * 16 + b) * 16 + c1) * 16 + d ∧
                                ((a * 16 + b) * 16 + c1) * 16 + d ≤ 57343 then none
                            else pushChar (Char.ofNat (((a * 16 + b) * 16 + c1) * 16 + d))
                              (parseStringBody f (escapeList t ++ qchar :: rest))
                          | _, _, _, _ => none) := rfl
                      rw [show (bslash :: 'u' :: '0' :: '0' ::
                          hexDigitChar (c.toNat / 16) :: hexDigitChar (c.toNat % 16) ::
                          escapeList t) ++ qchar :: rest =
                        bslash :: 'u' :: '0' :: '0' ::
                          hexDigitChar (c.toNat / 16) :: hexDigitChar (c.toNat % 16) ::
                          (escapeList t ++ qchar :: rest) from by simp, hstep,
                        show hexVal? '0' = some 0 from by decide,
                        hexVal?_hexDigitChar (c.toNat / 16) (by omega),
                        hexVal?_hexDigitChar (c.toNat % 16) (by omega)]
                      have hcp : ((0 * 16 + 0) * 16 + c.toNat / 16) * 16 + c.toNat % 16
                          = c.toNat := by omega
                      dsimp only
                      rw [hcp, if_neg (by omega), if_neg (by omega), Char.ofNat_toNat,
                        ih rest f (by omega), pushChar_some]
                  · have he : escapeList (c :: t) = c :: escapeList t := by
                      rw [escapeList, escapeChar, if_neg h1, if_neg h2, if_neg h3,
                        if_neg h4, if_neg h5, if_neg h6, if_neg h7, if_neg h8]
                      rfl
                    rw [he] at hf ⊢
                    simp only [List.length_cons] at hf
                    cases fuel with
                    | zero => omega
                    | succ f =>
                      rw [show (c :: escapeList t) ++ qchar :: rest =
                        c :: (escapeList t ++ qchar :: rest) from by simp]
                      rw [parseStringBody.eq_def]
                      dsimp only
                      rw [if_neg h1, if_neg h2, if_neg h8, ih rest f (by omega),
                        pushChar_some]

/-! ## Number parsing round trip -/

theorem intDigits?_digits (c : Char) (t rest : List Char) (hc : c.isDigit = true)
    (hne0 : c = '0' → t = []) (hall : ∀ d ∈ t, d.isDigit = true)
    (hrest : ∀ d, rest.head? = some d → d.isDigit = false) :
    intDigits? ((c :: t) ++ rest) = some (c :: t, rest) := by
  by_cases h0 : c = '0'
  · subst h0
    rw [hne0 rfl]
    cases rest with
    | nil => rfl
    | cons d r =>
      have hd := hrest d rfl
      simp only [List.cons_append, List.nil_append]
      rw [intDigits?.eq_def]
      dsimp only
      rw [if_pos rfl, hd]
      simp
  · have hspan := takeWhile_span (p := Char.isDigit) (c :: t) rest
      (fun d hd => by
        rcases List.mem_cons.mp hd with h | h
        · rw [h]; exact hc
        · exact hall d h)
      hrest
    have heq : (c :: t) ++ rest = c :: (t ++ rest) := by simp
    rw [heq, intDigits?.eq_def]
    dsimp only
    rw [if_neg h0, if_pos hc, ← heq, hspan.1, hspan.2]

theorem parseFracPart_none (rest : List Char)
    (h : ∀ c, rest.head? = some c → c ≠ '.') :
    parseFracPart rest = some (false, rest) := by
  cases rest with
  | nil => rfl
  | cons c r =>
    rw [parseFracPart.eq_def]
    dsimp only
    rw [if_neg (h c rfl)]

theorem parseExpPart_none (rest : List Char)
    (h : ∀ c, rest.head? = some c → (c ≠ 'e' ∧ c ≠ 'E')) :
    parseExpPart rest = some (false, rest) := by
  cases rest with
  | nil => rfl
  | cons c r =>
    have hce := h c rfl
    rw [parseExpPart.eq_def]
    dsimp only
    rw [if_neg (by tauto)]

theorem parseNumber_cons_minus (r : List Char) :
    parseNumber ('-' :: r) = parseNumBody true ('-' :: r) r := rfl

theorem parseNumber_cons_ne_minus {c : Char} (r : List Char) (hc : c ≠ '-') :
    parseNumber (c :: r) = parseNumBody false (c :: r) (c :: r) := by
  rw [parseNumber.eq_def]
  split
  · rename_i heq
    injection heq with h1 h2
    exact absurd h1 hc
  · rfl

/-- A head split of `std::to_string(n)`: minus sign or a digit. -/
theorem intToString_head (n : Int) :
    ∃ c t, (intToString n).data = c :: t ∧ (c = '-' ∨ c.isDigit = true) := by
  by_cases hneg : n < 0
  · exact ⟨'-', natDigits n.natAbs, by simp [intToString, hneg], Or.inl rfl⟩
  · obtain ⟨c, t, hct⟩ : ∃ c t, natDigits n.natAbs = c :: t := by
      cases h : natDigits n.natAbs with
      | nil => exact absurd h (natDigits_ne_nil _)
      | cons c t => exact ⟨c, t, rfl⟩
    exact ⟨c, t, by simp [intToString, hneg, hct],
      Or.inr (natDigits_head_digit _ c t hct)⟩

/-- Parsing back a dumped integer: `parseNumber` on `std::to_string(n)`
followed by a non-number character recovers `JVal.int n`. -/
theorem parseNumber_intToString (n : Int) (h1 : -9223372036854775808 ≤ n)
    (h2 : n ≤ 2147483647) (rest : List Char)
    (hrest : ∀ c, rest.head? = some c →
      (c.isDigit = false ∧ c ≠ '.' ∧ c ≠ 'e' ∧ c ≠ 'E')) :
    parseNumber ((intToString n).data ++ rest) = some (JVal.int n, rest) := by
  have hfrac : parseFracPart rest = some (false, rest) :=
    parseFracPart_none rest (fun c hc => (hrest c hc).2.1)
  have hexp : parseExpPart rest = some (false, rest) :=
    parseExpPart_none rest (fun c hc => (hrest c hc).2.2)
  have hrestd : ∀ d, rest.head? = some d → d.isDigit = false :=
    fun d hd => (hrest d hd).1
  obtain ⟨c, t, hct⟩ : ∃ c t, natDigits n.natAbs = c :: t := by
    cases h : natDigits n.natAbs with
    | nil => exact absurd h (natDigits_ne_nil _)
    | cons c t => exact ⟨c, t, rfl⟩
  have hcdig : c.isDigit = true := natDigits_head_digit _ c t hct
  have hall : ∀ d ∈ t, d.isDigit = true := fun d hd =>
    natDigits_all_digits _ d (by rw [hct]; exact List.mem_cons_of_mem c hd)
  have hdig := intDigits?_digits c t rest hcdig
  by_cases hneg : n < 0
  · have hdata : (intToString n).data = '-' :: natDigits n.natAbs := by
      simp [intToString, hneg]
    have hc0 : c = '0' → t = [] := by
      intro h0
      exact absurd h0 (natDigits_head_ne_zero n.natAbs (by omega) c
        (by rw [hct]; rfl))
    rw [hdata, List.cons_append, parseNumber_cons_minus, parseNumBody, hct,
      hdig hc0 hall hrestd]
    dsimp only
    rw [hfrac]
    dsimp only
    rw [hexp]
    dsimp only
    rw [if_neg (by simp), if_pos rfl, ← hct, digitsVal_natDigits,
      if_pos (by omega)]
    have hn : -((n.natAbs : Nat) : Int) = n := by omega
    rw [hn]
  · have hdata : (intToString n).data = natDigits n.natAbs := by
      simp [intToString, hneg]
    have hc0 : c = '0' → t = [] := by
      intro h0
      by_cases hz : n.natAbs = 0
      · rw [show natDigits n.natAbs = ['0'] from by rw [hz]; rfl] at hct
        cases hct
        rfl
      · exact absurd h0 (natDigits_head_ne_zero n.natAbs hz c (by rw [hct]; rfl))
    have hcm : c ≠ '-' := ne_minus_of_isDigit hcdig
    rw [hdata, hct, List.cons_append,
      parseNumber_cons_ne_minus (t ++ rest) hcm, ← List.cons_append,
      parseNumBody, hdig hc0 hall hrestd]
    dsimp only
    rw [hfrac]
    dsimp only
    rw [hexp]
    dsimp only
    rw [if_neg (by simp), if_neg (by simp), ← hct, digitsVal_natDigits,
      if_pos (by omega)]
    have hn : ((n.natAbs : Nat) : Int) = n := by omega
    rw [hn]

/-! ## Value dispatch and scalar round trip -/

theorem parseCore_value_lbrace (f : Nat) (r : List Char) :
    parseCore (f + 1) PMode.value (lbrace :: r) = parseCore f PMode.objFirst r := rfl

theorem parseCore_value_string (f : Nat) (r : List Char) :
    parseCore (f + 1) PMode.value (qchar :: r) =
      (parseStringBody (r.length + 1) r).map (fun sr => (JVal.str ⟨sr.1⟩, sr.2)) := rfl

theorem digit_enum {c : Char} (h : c.isDigit = true) :
    c = '0' ∨ c = '1' ∨ c = '2' ∨ c = '3' ∨ c = '4' ∨ c = '5' ∨ c = '6' ∨
      c = '7' ∨ c = '8' ∨ c = '9' := by
  obtain ⟨h1, h2⟩ := isDigit_toNat h
  have hc : c = Char.ofNat c.toNat := (Char.ofNat_toNat c).symm
  interval_cases h3 : c.toNat <;> rw [hc] <;> decide

theorem parseCore_value_number (f : Nat) (c : Char) (r : List Char)
    (h : c = '-' ∨ c.isDigit = true) :
    parseCore (f + 1) PMode.value (c :: r) = parseNumber (c :: r) := by
  rcases h with h | h
  · subst h; rfl
  · rcases digit_enum h with h | h | h | h | h | h | h | h | h | h <;>
      subst h <;> rfl

/-- Parsing back one dumped scalar value (the two shapes `ToJson` emits). -/
theorem parseCore_value_scalar (v : String) (tail : List Char) (f : Nat)
    (htail : ∀ c, tail.head? = some c → (c = ',' ∨ c = '\n')) :
    parseCore (f + 1) PMode.value (dumpScalarChars (encodeValue v) ++ tail) =
      some (encodeValue v, tail) := by
  cases hs : stoi v with
  | some n =>
    have hen : encodeValue v = JVal.int n := by rw [encodeValue, hs]
    obtain ⟨hr1, hr2⟩ := stoi_some_range hs
    rw [hen]
    show parseCore (f + 1) PMode.value ((intToString n).data ++ tail) =
      some (JVal.int n, tail)
    obtain ⟨c, t, hct, hcd⟩ := intToString_head n
    rw [hct, List.cons_append, parseCore_value_number f c _ hcd,
      ← List.cons_append, ← hct]
    exact parseNumber_intToString n (by omega) (by omega) tail (fun c hc => by
      rcases htail c hc with h | h <;> subst h <;>
        exact ⟨by decide, by decide, by decide, by decide⟩)
  | none =>
    have hen : encodeValue v = JVal.str v := by rw [encodeValue, hs]
    rw [hen]
    show parseCore (f + 1) PMode.value
        ((qchar :: (escapeList v.data ++ [qchar])) ++ tail) =
      some (JVal.str v, tail)
    rw [List.cons_append, parseCore_value_string]
    have hx : (escapeList v.data ++ [qchar]) ++ tail =
        escapeList v.data ++ qchar :: tail := by simp
    rw [hx, parseStringBody_escape v.data tail _
      (by simp only [List.length_append, List.length_cons]; omega)]
    rfl

theorem skipWs_dumpScalar (v : String) (tail : List Char) :
    skipWs (dumpScalarChars (encodeValue v) ++ tail) =
      dumpScalarChars (encodeValue v) ++ tail := by
  cases hs : stoi v with
  | some n =>
    have hen : encodeValue v = JVal.int n := by rw [encodeValue, hs]
    rw [hen]
    show skipWs ((intToString n).data ++ tail) = (intToString n).data ++ tail
    obtain ⟨c, t, hct, hcd⟩ := intToString_head n
    rw [hct, List.cons_append, skipWs_cons_false ?hws]
    case hws =>
      rcases hcd with h | h
      · subst h; decide
      · exact jsonWs_false_of_isDigit h
  | none =>
    have hen : encodeValue v = JVal.str v := by rw [encodeValue, hs]
    rw [hen]
    show skipWs ((qchar :: (escapeList v.data ++ [qchar])) ++ tail) = _
    rw [List.cons_append, skipWs_cons_false (by decide)]
    simp [dumpScalarChars]

/-! ## Object dump round trip -/

/-- The input remaining ahead of the parser after it has consumed a member
of a dumped object: either the closing `\n}` or a `,\n` and the remaining
members. -/
def fieldsTailChars (ps : List (String × String)) (rest : List Char) : List Char :=
  match ps with
  | [] => '\n' :: rbrace :: rest
  | _ :: _ => ',' :: '\n' :: (joinFieldsChars ps ++ '\n' :: rbrace :: rest)

theorem joinFields_decomp (p : String × String) (ps : List (String × String))
    (rest : List Char) :
    joinFieldsChars (p :: ps) ++ '\n' :: rbrace :: rest =
      ' ' :: ' ' :: (dumpFieldChars p ++ fieldsTailChars ps rest) := by
  cases ps with
  | nil => simp [joinFieldsChars, fieldsTailChars]
  | cons q qs => simp [joinFieldsChars, fieldsTailChars]

theorem fieldsTail_head (ps : List (String × String)) (rest : List Char) :
    ∀ c, (fieldsTailChars ps rest).head? = some c → (c = ',' ∨ c = '\n') := by
  cases ps with
  | nil =>
    intro c hc
    simp [fieldsTailChars] at hc
    exact Or.inr hc.symm
  | cons q qs =>
    intro c hc
    simp [fieldsTailChars] at hc
    exact Or.inl hc.symm

theorem memberBody_dumpField (p : String × String) (tail : List Char) (f : Nat)
    (hf : 1 ≤ f)
    (htail : ∀ c, tail.head? = some c → (c = ',' ∨ c = '\n')) :
    memberBody (fun m cs2 => parseCore f m cs2)
      (escapeList p.1.data ++ qchar :: ':' :: ' ' ::
        (dumpScalarChars (encodeValue p.2) ++ tail)) =
      some (p.1.data, encodeValue p.2, tail) := by
  rw [memberBody, parseStringBody_escape p.1.data _ _
    (by simp only [List.length_append, List.length_cons]; omega)]
  rw [Option.some_bind]
  dsimp only
  rw [skipWs_cons_false (by decide), afterKey, skipWs_cons_true (by decide),
    skipWs_dumpScalar]
  obtain ⟨f', rfl⟩ : ∃ f', f = f' + 1 := ⟨f - 1, by omega⟩
  rw [parseCore_value_scalar p.2 tail f' htail]
  rfl

theorem parseCore_objNext_fields :
    ∀ (ps : List (String × String)) (acc : List (String × JVal)) (rest : List Char)
      (fuel : Nat), (fieldsTailChars ps rest).length < fuel →
      parseCore fuel (PMode.objNext acc) (fieldsTailChars ps rest) =
        some (JVal.obj (ps.foldl (fun a p => mapInsert p.1 (encodeValue p.2) a) acc),
          rest) := by
  intro ps
  induction ps with
  | nil =>
    intro acc rest fuel hf
    have h2 : 2 ≤ fuel := by
      simp [fieldsTailChars] at hf
      omega
    obtain ⟨f, rfl⟩ : ∃ f, fuel = f + 1 := ⟨fuel - 1, by omega⟩
    show objNextBody (fun m cs2 => parseCore f m cs2) acc ('\n' :: rbrace :: rest) =
      some (JVal.obj acc, rest)
    rw [objNextBody, skipWs_cons_true (by decide), skipWs_cons_false (by decide)]
    dsimp only
    rw [if_pos rfl]
  | cons p ps ih =>
    intro acc rest fuel hf
    have hshape : fieldsTailChars (p :: ps) rest =
        ',' :: '\n' :: ' ' :: ' ' :: (dumpFieldChars p ++ fieldsTailChars ps rest) := by
      show ',' :: '\n' :: (joinFieldsChars (p :: ps) ++ '\n' :: rbrace :: rest) = _
      rw [joinFields_decomp]
    rw [hshape] at hf ⊢
    simp only [List.length_cons, List.length_append] at hf
    have hdf : 4 ≤ (dumpFieldChars p).length := by
      simp [dumpFieldChars]
      omega
    obtain ⟨f, rfl⟩ : ∃ f, fuel = f + 1 := ⟨fuel - 1, by omega⟩
    show objNextBody (fun m cs2 => parseCore f m cs2) acc
        (',' :: '\n' :: ' ' :: ' ' :: (dumpFieldChars p ++ fieldsTailChars ps rest)) =
      _
    rw [objNextBody, skipWs_cons_false (by decide)]
    dsimp only
    rw [if_neg (by decide), if_pos rfl, skipWs_cons_true (by decide),
      skipWs_cons_true (by decide), skipWs_cons_true (by decide)]
    have hfield : dumpFieldChars p ++ fieldsTailChars ps rest =
        qchar :: (escapeList p.1.data ++ qchar :: ':' :: ' ' ::
          (dumpScalarChars (encodeValue p.2) ++ fieldsTailChars ps rest)) := by
      rw [dumpFieldChars]
      simp
    rw [hfield, skipWs_cons_false (by decide)]
    dsimp only
    rw [if_pos rfl, memberBody_dumpField p (fieldsTailChars ps rest) f (by omega)
      (fieldsTail_head ps rest), Option.some_bind]
    dsimp only
    rw [List.foldl_cons]
    exact ih (mapInsert p.1 (encodeValue p.2) acc) rest f (by omega)

theorem parseCore_objFirst_fields (p : String × String) (ps : List (String × String))
    (rest : List Char) (fuel : Nat)
    (hf : ('\n' :: (joinFieldsChars (p :: ps) ++ '\n' :: rbrace :: rest)).length
      < fuel) :
    parseCore fuel PMode.objFirst
        ('\n' :: (joinFieldsChars (p :: ps) ++ '\n' :: rbrace :: rest)) =
      some (JVal.obj
        ((p :: ps).foldl (fun a q => mapInsert q.1 (encodeValue q.2) a) []), rest) := by
  rw [joinFields_decomp] at hf ⊢
  simp only [List.length_cons, List.length_append] at hf
  have hdf : 4 ≤ (dumpFieldChars p).length := by
    simp [dumpFieldChars]
    omega
  obtain ⟨f, rfl⟩ : ∃ f, fuel = f + 1 := ⟨fuel - 1, by omega⟩
  show objFirstBody (fun m cs2 => parseCore f m cs2)
      ('\n' :: ' ' :: ' ' :: (dumpFieldChars p ++ fieldsTailChars ps rest)) = _
  rw [objFirstBody, skipWs_cons_true (by decide), skipWs_cons_true (by decide),
    skipWs_cons_true (by decide)]
  have hfield : dumpFieldChars p ++ fieldsTailChars ps rest =
      qchar :: (escapeList p.1.data ++ qchar :: ':' :: ' ' ::
        (dumpScalarChars (encodeValue p.2) ++ fieldsTailChars ps rest)) := by
    rw [dumpFieldChars]
    simp
  rw [hfield, skipWs_cons_false (by decide)]
  dsimp only
  rw [if_neg (by decide), if_pos rfl,
    memberBody_dumpField p (fieldsTailChars ps rest) f (by omega)
      (fieldsTail_head ps rest), Option.some_bind]
  dsimp only
  rw [List.foldl_cons]
  exact parseCore_objNext_fields ps (mapInsert p.1 (encodeValue p.2) [])
    rest f (by omega)

/-- Parsing a nonempty dumped object back from the start of its text. -/
theorem parseCore_value_objDump (ps : List (String × String)) (rest : List Char)
    (fuel : Nat) (hps : ps ≠ [])
    (hf : (lbrace :: '\n' :: (joinFieldsChars ps ++ '\n' :: rbrace :: rest)).length
      < fuel) :
    parseCore fuel PMode.value
        (lbrace :: '\n' :: (joinFieldsChars ps ++ '\n' :: rbrace :: rest)) =
      some (JVal.obj (ps.foldl (fun a q => mapInsert q.1 (encodeValue q.2) a) []),
        rest) := by
  obtain ⟨f, rfl⟩ : ∃ f, fuel = f + 1 := ⟨fuel - 1, by omega⟩
  rw [parseCore_value_lbrace]
  cases ps with
  | nil => exact absurd rfl hps
  | cons p ps' =>
    exact parseCore_objFirst_fields p ps' rest f
      (by simp only [List.length_cons] at hf ⊢; omega)

theorem jsonItems_obj (flds : List (String × JVal)) :
    jsonItems (JVal.obj flds) = flds := rfl

/-! ## `json_parse` of `ToJson` output -/

theorem json_parse_ToJson_nil : json_parse (ToJson []) = some JVal.null := rfl

theorem json_parse_ToJson_cons (st : SMap String) (hs : SortedKeys st)
    (hne : st ≠ []) :
    json_parse (ToJson st) =
      some (JVal.obj (st.map (fun p => (p.1, encodeValue p.2)))) := by
  cases st with
  | nil => exact absurd rfl hne
  | cons p ps =>
    have hdata : (ToJson (p :: ps)).data =
        lbrace :: '\n' :: (joinFieldsChars (p :: ps) ++ '\n' :: rbrace :: []) := rfl
    rw [json_parse, hdata, skipWs_cons_false (by decide),
      parseCore_value_objDump (p :: ps) [] _ (by simp) (by omega)]
    dsimp only
    rw [foldl_mapInsert_sorted (fun q => encodeValue q.2) (p :: ps) hs]
    rfl

theorem decodePair?_encoded (k v : String) (hv : ∃ n : Int, v = intToString n) :
    decodePair? (k, encodeValue v) = some (k, v) := by
  obtain ⟨n, rfl⟩ := hv
  rw [encodeValue, stoi_intToString]
  by_cases hr : -2147483648 ≤ n ∧ n ≤ 2147483647
  · rw [if_pos hr]
    show decodePair? (k, JVal.int n) = _
    rw [decodePair?]
    dsimp only [decodeField?]
    rw [toInt32_of_range hr.1 hr.2]
    rfl
  · rw [if_neg hr]
    rfl

theorem filterMap_decode_encoded :
    ∀ (st : SMap String), (∀ p ∈ st, ∃ n : Int, p.2 = intToString n) →
      (st.map (fun p => (p.1, encodeValue p.2))).filterMap decodePair? = st := by
  intro st
  induction st with
  | nil => intro _; rfl
  | cons p t ih =>
    intro hv
    rw [List.map_cons, List.filterMap_cons,
      decodePair?_encoded p.1 p.2 (hv p (List.mem_cons_self p t)),
      ih (fun q hq => hv q (List.mem_cons_of_mem p hq))]

theorem decodeItems_encoded (st : SMap String) (hs : SortedKeys st)
    (hv : ∀ p ∈ st, ∃ n : Int, p.2 = intToString n) :
    decodeItems (JVal.obj (st.map (fun p => (p.1, encodeValue p.2)))) = st := by
  rw [decodeItems, jsonItems_obj, foldInsertOpt_eq_foldl_filterMap decodePair?,
    filterMap_decode_encoded st hv]
  exact (foldl_mapInsert_sorted (fun p => p.2) st hs).trans (by simp)

/-! ## Parsed objects have sorted keys -/

theorem parseNumBody_shape {neg : Bool} {orig cs1 : List Char} {jv : JVal}
    {r : List Char} (h : parseNumBody neg orig cs1 = some (jv, r)) :
    (∃ n, jv = JVal.int n) ∨ (∃ raw, jv = JVal.num raw) := by
  rw [parseNumBody] at h
  split at h
  · cases h
  · split at h
    · cases h
    · split at h
      · cases h
      · split at h
        · simp only [Option.some.injEq, Prod.mk.injEq] at h
          exact Or.inr ⟨_, h.1.symm⟩
        · split at h
          · split at h
            · simp only [Option.some.injEq, Prod.mk.injEq] at h
              exact Or.inl ⟨_, h.1.symm⟩
            · simp only [Option.some.injEq, Prod.mk.injEq] at h
              exact Or.inr ⟨_, h.1.symm⟩
          · split at h
            · simp only [Option.some.injEq, Prod.mk.injEq] at h
              exact Or.inl ⟨_, h.1.symm⟩
            · simp only [Option.some.injEq, Prod.mk.injEq] at h
              exact Or.inr ⟨_, h.1.symm⟩

theorem parseNumber_shape {cs : List Char} {jv : JVal} {r : List Char}
    (h : parseNumber cs = some (jv, r)) :
    (∃ n, jv = JVal.int n) ∨ (∃ raw, jv = JVal.num raw) := by
  rw [parseNumber.eq_def] at h
  split at h
  · exact parseNumBody_shape h
  · exact parseNumBody_shape h

/-- Objects built by the parser keep their `std::map` key invariant: `[]` is
sorted and each member goes through `mapInsert`. -/
theorem parseCore_sorted_aux :
    ∀ fuel : Nat,
      (∀ acc cs flds r, SortedKeys acc →
        parseCore fuel (PMode.objNext acc) cs = some (JVal.obj flds, r) →
          SortedKeys flds) ∧
      (∀ cs flds r, parseCore fuel PMode.objFirst cs = some (JVal.obj flds, r) →
        SortedKeys flds) ∧
      (∀ acc cs flds r,
        parseCore fuel (PMode.arrNext acc) cs = some (JVal.obj flds, r) → False) ∧
      (∀ cs flds r, parseCore fuel PMode.arrFirst cs = some (JVal.obj flds, r) →
        False) ∧
      (∀ cs flds r, parseCore fuel PMode.value cs = some (JVal.obj flds, r) →
        SortedKeys flds) := by
  intro fuel
  induction fuel with
  | zero =>
    refine ⟨?_, ?_, ?_, ?_, ?_⟩
    · intro acc cs flds r hacc h
      cases h
    · intro cs flds r h
      cases h
    · intro acc cs flds r h
      cases h
    · intro cs flds r h
      cases h
    · intro cs flds r h
      cases h
  | succ f ih =>
    obtain ⟨ihN, ihF, ihAN, ihAF, ihV⟩ := ih
    have hmember : ∀ acc r1 flds r, SortedKeys acc →
        ((memberBody (fun m cs2 => parseCore f m cs2) r1).bind (fun kvr =>
          parseCore f (PMode.objNext (mapInsert ⟨kvr.1⟩ kvr.2.1 acc)) kvr.2.2)) =
          some (JVal.obj flds, r) → SortedKeys flds := by
      intro acc r1 flds r hacc h
      cases hm : memberBody (fun m cs2 => parseCore f m cs2) r1 with
      | none => rw [hm, Option.none_bind] at h; cases h
      | some kvr =>
        rw [hm, Option.some_bind] at h
        exact ihN _ _ _ _ (sortedKeys_mapInsert _ _ _ hacc) h
    refine ⟨?_, ?_, ?_, ?_, ?_⟩
    · intro acc cs flds r hacc h
      rw [show parseCore (f + 1) (PMode.objNext acc) cs =
        objNextBody (fun m cs2 => parseCore f m cs2) acc cs from rfl,
        objNextBody] at h
      split at h
      · cases h
      · split at h
        · simp only [Option.some.injEq, Prod.mk.injEq, JVal.obj.injEq] at h
          rw [← h.1]
          exact hacc
        · split at h
          · split at h
            · split at h
              · exact hmember acc _ flds r hacc h
              · cases h
            · cases h
          · cases h
    · intro cs flds r h
      rw [show parseCore (f + 1) PMode.objFirst cs =
        objFirstBody (fun m cs2 => parseCore f m cs2) cs from rfl,
        objFirstBody] at h
      split at h
      · cases h
      · split at h
        · simp only [Option.some.injEq, Prod.mk.injEq, JVal.obj.injEq] at h
          rw [← h.1]
          exact List.Pairwise.nil
        · split at h
          · exact hmember [] _ flds r List.Pairwise.nil h
          · cases h
    · intro acc cs flds r h
      rw [show parseCore (f + 1) (PMode.arrNext acc) cs =
        arrNextBody (fun m cs2 => parseCore f m cs2) acc cs from rfl,
        arrNextBody] at h
      split at h
      · cases h
      · split at h
        · simp at h
        · split at h
          · cases hv : parseCore f PMode.value (skipWs _) with
            | none =>
              rw [hv, Option.none_bind] at h
              cases h
            | some vr =>
              rw [hv, Option.some_bind] at h
              exact ihAN _ _ _ _ h
          · cases h
    · intro cs flds r h
      rw [show parseCore (f + 1) PMode.arrFirst cs =
        arrFirstBody (fun m cs2 => parseCore f m cs2) cs from rfl,
        arrFirstBody] at h
      split at h
      · cases h
      · split at h
        · simp at h
        · cases hv : parseCore f PMode.value _ with
          | none =>
            rw [hv, Option.none_bind] at h
            cases h
          | some vr =>
            rw [hv, Option.some_bind] at h
            exact ihAN _ _ _ _ h
    · intro cs flds r h
      rw [show parseCore (f + 1) PMode.value cs =
        valueBody (fun m cs2 => parseCore f m cs2) cs from rfl,
        valueBody.eq_def] at h
      split at h
      · cases h
      · split at h
        · exact ihF _ _ _ h
        · split at h
          · exact absurd h (by intro hh; exact ihAF _ _ _ hh)
          · split at h
            · cases hsb : parseStringBody _ _ with
              | none =>
                rw [hsb] at h
                cases h
              | some sr =>
                rw [hsb, Option.map_some'] at h
                simp at h
            · split at h
              · split at h
                · simp at h
                · cases h
              · split at h
                · split at h
                  · simp at h
                  · cases h
                · split at h
                  · split at h
                    · simp at h
                    · cases h
                  · split at h
                    · rcases parseNumber_shape h with ⟨n, hn⟩ | ⟨raw, hn⟩ <;>
                        cases hn
                    · cases h

theorem json_parse_obj_sorted {s : String} {flds : List (String × JVal)}
    (h : json_parse s = some (JVal.obj flds)) : SortedKeys flds := by
  rw [json_parse] at h
  split at h
  · rename_i v rest hp
    split at h
    · simp only [Option.some.injEq] at h
      subst h
      exact (parseCore_sorted_aux _).2.2.2.2 _ _ _ hp
    · cases h
  · cases h

/-! ## Lookup in the decoded map (C4 / C10) -/

theorem decodePair?_some_key {kv : String × JVal} {p : String × String}
    (h : decodePair? kv = some p) : p.1 = kv.1 ∧ decodeField? kv.2 = some p.2 := by
  rw [decodePair?] at h
  rcases Option.map_eq_some'.mp h with ⟨s, hs, hp⟩
  rw [← hp]
  exact ⟨rfl, by rw [hs]⟩

theorem decodePair?_none {kv : String × JVal} (h : decodePair? kv = none) :
    decodeField? kv.2 = none := by
  rw [decodePair?] at h
  exact Option.map_eq_none'.mp h

theorem decodedKeys (l : List (String × JVal)) :
    ∀ p ∈ l.filterMap decodePair?, ∃ q ∈ l, p.1 = q.1 := by
  induction l with
  | nil => intro p hp; cases hp
  | cons kv t ih =>
    intro p hp
    rw [List.filterMap_cons] at hp
    cases hd : decodePair? kv with
    | none =>
      rw [hd] at hp
      obtain ⟨q, hq, hpq⟩ := ih p hp
      exact ⟨q, List.mem_cons_of_mem kv hq, hpq⟩
    | some pr =>
      rw [hd] at hp
      rcases List.mem_cons.mp hp with hp | hp
      · exact ⟨kv, List.mem_cons_self kv t, by rw [hp]; exact (decodePair?_some_key hd).1⟩
      · obtain ⟨q, hq, hpq⟩ := ih p hp
        exact ⟨q, List.mem_cons_of_mem kv hq, hpq⟩

theorem decode_filter_lookup :
    ∀ (flds : List (String × JVal)), SortedKeys flds → ∀ k,
      ((flds.filterMap decodePair?).filter (fun p => p.1 = k)).getLast?.map
        Prod.snd = (mapFind k flds).bind decodeField? := by
  intro flds
  induction flds with
  | nil => intro _ k; rfl
  | cons kv t ih =>
    intro hs k
    have hrest : SortedKeys t := (List.pairwise_cons.mp hs).2
    have hlt : ∀ b ∈ t, kv.1 < b.1 := (List.pairwise_cons.mp hs).1
    have hnilfilter : kv.1 = k →
        (t.filterMap decodePair?).filter (fun p => p.1 = k) = [] := by
      intro hk
      rw [List.filter_eq_nil_iff]
      intro p hp
      obtain ⟨q, hq, hpq⟩ := decodedKeys t p hp
      have hql := hlt q hq
      simp only [decide_eq_true_eq]
      intro hpk
      rw [hpq] at hpk
      rw [hpk, ← hk] at hql
      exact lt_irrefl kv.1 hql
    rw [List.filterMap_cons]
    cases hd : decodePair? kv with
    | none =>
      have hdf : decodeField? kv.2 = none := decodePair?_none hd
      by_cases hk : kv.1 = k
      · rw [hnilfilter hk]
        simp [mapFind, hk, hdf]
      · simp only [mapFind, hk, if_false]
        exact ih hrest k
    | some pr =>
      have hkey := decodePair?_some_key hd
      by_cases hk : kv.1 = k
      · rw [List.filter_cons_of_pos (by simp [hkey.1, hk]), getLast?_cons_or,
          hnilfilter hk]
        simp [mapFind, hk, hkey.2]
      · rw [List.filter_cons_of_neg (by simp [hkey.1, hk])]
        simp only [mapFind, hk, if_false]
        exact ih hrest k

theorem decode_lookup (flds : List (String × JVal)) (hs : SortedKeys flds)
    (k : String) :
    mapFind k (decodeItems (JVal.obj flds)) = (mapFind k flds).bind decodeField? := by
  rw [decodeItems, jsonItems_obj, foldInsertOpt_eq_foldl_filterMap,
    mapFind_foldl_mapInsert, ← decode_filter_lookup flds hs k]
  cases hl : ((flds.filterMap decodePair?).filter (fun p => p.1 = k)).getLast? <;>
    simp [hl, mapFind]

theorem arrItems_keys (xs : List JVal) :
    ∀ n p, p ∈ (arrItems n xs).filterMap decodePair? →
      ∃ j, n ≤ j ∧ p.1 = natToString j := by
  induction xs with
  | nil => intro n p hp; cases hp
  | cons x t ih =>
    intro n p hp
    rw [show arrItems n (x :: t) = (natToString n, x) :: arrItems (n + 1) t from rfl,
      List.filterMap_cons] at hp
    cases hd : decodePair? (natToString n, x) with
    | none =>
      rw [hd] at hp
      obtain ⟨j, h1, h3⟩ := ih (n + 1) p hp
      exact ⟨j, by omega, h3⟩
    | some pr =>
      rw [hd] at hp
      rcases List.mem_cons.mp hp with hp | hp
      · exact ⟨n, le_rfl, by rw [hp]; exact (decodePair?_some_key hd).1⟩
      · obtain ⟨j, h1, h3⟩ := ih (n + 1) p hp
        exact ⟨j, by omega, h3⟩

theorem arr_filter_lookup (xs : List JVal) :
    ∀ (n i : Nat) (h : i < xs.length),
      (((arrItems n xs).filterMap decodePair?).filter
        (fun p => p.1 = natToString (n + i))).getLast?.map Prod.snd =
      decodeField? (xs.get ⟨i, h⟩) := by
  induction xs with
  | nil => intro n i h; exact absurd h (Nat.not_lt_zero i)
  | cons x t ih =>
    intro n i h
    rw [show arrItems n (x :: t) = (natToString n, x) :: arrItems (n + 1) t from rfl,
      List.filterMap_cons]
    cases i with
    | zero =>
      have hrestnil : ((arrItems (n + 1) t).filterMap decodePair?).filter
          (fun p => p.1 = natToString (n + 0)) = [] := by
        rw [List.filter_eq_nil_iff]
        intro p hp
        obtain ⟨j, h1, h3⟩ := arrItems_keys t (n + 1) p hp
        simp only [decide_eq_true_eq]
        intro hpk
        rw [h3] at hpk
        have := natToString_injective hpk
        omega
      cases hd : decodePair? (natToString n, x) with
      | none =>
        have hdf := decodePair?_none hd
        rw [hrestnil]
        simp [hdf]
      | some pr =>
        have hkey := decodePair?_some_key hd
        rw [List.filter_cons_of_pos
          (by simp only [decide_eq_true_eq]; rw [hkey.1]; simp),
          getLast?_cons_or, hrestnil]
        simp [← hkey.2]
    | succ i2 =>
      have hneq : natToString n ≠ natToString (n + (i2 + 1)) := by
        intro he
        have := natToString_injective he
        omega
      have hi2 : i2 < t.length := by
        simp only [List.length_cons] at h
        omega
      have hmain := ih (n + 1) i2 hi2
      rw [show (n + 1) + i2 = n + (i2 + 1) from by omega] at hmain
      cases hd : decodePair? (natToString n, x) with
      | none => exact hmain
      | some pr =>
        have hkey := decodePair?_some_key hd
        rw [List.filter_cons_of_neg
          (by simp only [decide_eq_true_eq]; rw [hkey.1]; exact hneq)]
        exact hmain

theorem decodeItems_arr_lookup (xs : List JVal) (i : Nat) (h : i < xs.length) :
    mapFind (natToString i) (decodeItems (JVal.arr xs)) =
      decodeField? (xs.get ⟨i, h⟩) := by
  rw [decodeItems, show jsonItems (JVal.arr xs) = arrItems 0 xs from rfl,
    foldInsertOpt_eq_foldl_filterMap, mapFind_foldl_mapInsert]
  have hmain := arr_filter_lookup xs 0 i h
  rw [show (0 + i) = i from by omega] at hmain
  rw [← hmain]
  cases hl : (((arrItems 0 xs).filterMap decodePair?).filter
      (fun p => p.1 = natToString i)).getLast? <;> simp [hl, mapFind]

/-! ## Helpers for the `key=value` line format and `stoi` characterization -/

theorem head?_dropWhile_false (p : Char → Bool) :
    ∀ (l : List Char) (c : Char), (l.dropWhile p).head? = some c → p c = false := by
  intro l
  induction l with
  | nil => intro c hc; cases hc
  | cons a t ih =>
    intro c hc
    rw [List.dropWhile_cons] at hc
    by_cases hp : p a
    · rw [if_pos hp] at hc
      exact ih c hc
    · rw [if_neg hp] at hc
      simp only [List.head?_cons, Option.some.injEq] at hc
      rw [← hc]
      exact Bool.eq_false_iff.mpr hp

theorem mem_of_dropWhile_cons {p : Char → Bool} :
    ∀ {l : List Char} {c : Char} {r : List Char}, l.dropWhile p = c :: r → c ∈ l := by
  intro l
  induction l with
  | nil => intro c r h; cases h
  | cons a t ih =>
    intro c r h
    rw [List.dropWhile_cons] at h
    by_cases hp : p a
    · rw [if_pos hp] at h
      exact List.mem_cons_of_mem a (ih h)
    · rw [if_neg hp] at h
      injection h with h1 h2
      rw [← h1]
      exact List.mem_cons_self a t

theorem dropWhile_eq_mem :
    ∀ (l : List Char), '=' ∈ l →
      ∃ post, l.dropWhile (fun c => c ≠ '=') = '=' :: post := by
  intro l
  induction l with
  | nil => intro hm; cases hm
  | cons a t ih =>
    intro hm
    by_cases ha : a = '='
    · subst ha
      refine ⟨t, ?_⟩
      rw [List.dropWhile_cons]
      simp
    · obtain ⟨post, hp⟩ := ih (by
        rcases List.mem_cons.mp hm with h | h
        · exact absurd h.symm ha
        · exact h)
      refine ⟨post, ?_⟩
      rw [List.dropWhile_cons, if_pos (by simp [ha]), hp]

theorem stoiDigits_some_inv {neg : Bool} {body : List Char} {n : Int}
    (h : stoiDigits neg body = some n) :
    body.takeWhile Char.isDigit ≠ [] ∧
    n = signVal neg (digitsVal (body.takeWhile Char.isDigit)) := by
  rw [stoiDigits] at h
  split at h
  · cases h
  · split at h
    · cases h
    · rename_i h1 h2
      simp only [Option.some.injEq] at h
      exact ⟨h1, h.symm⟩

theorem stoiDigits_span (neg : Bool) (ds rest : List Char) (hne : ds ≠ [])
    (hdig : ∀ c ∈ ds, c.isDigit = true)
    (hrest : ∀ c, rest.head? = some c → c.isDigit = false) :
    stoiDigits neg (ds ++ rest) =
      if signVal neg (digitsVal ds) < -2147483648 ∨
          2147483647 < signVal neg (digitsVal ds) then none
      else some (signVal neg (digitsVal ds)) := by
  have hspan := takeWhile_span (p := Char.isDigit) ds rest hdig hrest
  rw [stoiDigits, hspan.1, if_neg hne]

/-- Full characterization of a successful `std::stoi`: optional whitespace,
optional single sign, a maximal nonempty digit prefix whose value (signed)
fits `int`; everything after the digits is ignored. -/
theorem stoi_some_iff (v : String) (n : Int) :
    stoi v = some n ↔ ∃ ds rest, ds ≠ [] ∧ (∀ c ∈ ds, c.isDigit = true) ∧
      (∀ c, rest.head? = some c → c.isDigit = false) ∧
      ((v.data.dropWhile isCSpace = ds ++ rest ∧ n = (digitsVal ds : Int)) ∨
       (v.data.dropWhile isCSpace = '+' :: (ds ++ rest) ∧ n = (digitsVal ds : Int)) ∨
       (v.data.dropWhile isCSpace = '-' :: (ds ++ rest) ∧ n = -(digitsVal ds : Int))) ∧
      -2147483648 ≤ n ∧ n ≤ 2147483647 := by
  constructor
  · intro h
    have hrange := stoi_some_range h
    rw [stoi, stoiParse] at h
    cases hdw : v.data.dropWhile isCSpace with
    | nil => rw [hdw] at h; cases h
    | cons c r =>
      rw [hdw, stoiAfterSpace] at h
      by_cases hm : c = '-'
      · rw [if_pos hm] at h
        subst hm
        obtain ⟨hne, hval⟩ := stoiDigits_some_inv h
        refine ⟨r.takeWhile Char.isDigit, r.dropWhile Char.isDigit, hne,
          fun c hc => List.mem_takeWhile_imp hc,
          fun c hc => head?_dropWhile_false _ r c hc,
          Or.inr (Or.inr ⟨by rw [List.takeWhile_append_dropWhile], ?_⟩),
          hrange.1, hrange.2⟩
        rw [hval]
        rfl
      · by_cases hp : c = '+'
        · rw [if_neg hm, if_pos hp] at h
          subst hp
          obtain ⟨hne, hval⟩ := stoiDigits_some_inv h
          refine ⟨r.takeWhile Char.isDigit, r.dropWhile Char.isDigit, hne,
            fun c hc => List.mem_takeWhile_imp hc,
            fun c hc => head?_dropWhile_false _ r c hc,
            Or.inr (Or.inl ⟨by rw [List.takeWhile_append_dropWhile], ?_⟩),
            hrange.1, hrange.2⟩
          rw [hval]
          rfl
        · rw [if_neg hm, if_neg hp] at h
          obtain ⟨hne, hval⟩ := stoiDigits_some_inv h
          refine ⟨(c :: r).takeWhile Char.isDigit, (c :: r).dropWhile Char.isDigit,
            hne, fun d hd => List.mem_takeWhile_imp hd,
            fun d hd => head?_dropWhile_false _ (c :: r) d hd,
            Or.inl ⟨by rw [List.takeWhile_append_dropWhile], ?_⟩,
            hrange.1, hrange.2⟩
          rw [hval]
          rfl
  · rintro ⟨ds, rest, hne, hdig, hrest, hdisj, hr1, hr2⟩
    obtain ⟨d, ds2, rfl⟩ : ∃ d ds2, ds = d :: ds2 := by
      cases ds with
      | nil => exact absurd rfl hne
      | cons d ds2 => exact ⟨d, ds2, rfl⟩
    have hd : d.isDigit = true := hdig d (List.mem_cons_self d ds2)
    rw [stoi, stoiParse]
    rcases hdisj with ⟨hdw, hn⟩ | ⟨hdw, hn⟩ | ⟨hdw, hn⟩
    · rw [hdw, List.cons_append, stoiAfterSpace,
        if_neg (ne_minus_of_isDigit hd), if_neg (ne_plus_of_isDigit hd),
        ← List.cons_append, stoiDigits_span false _ _ hne hdig hrest]
      rw [show signVal false (digitsVal (d :: ds2)) = (digitsVal (d :: ds2) : Int)
        from rfl, ← hn]
      rw [if_neg (by omega)]
    · rw [hdw, stoiAfterSpace, if_neg (by decide), if_pos rfl,
        stoiDigits_span false _ _ hne hdig hrest]
      rw [show signVal false (digitsVal (d :: ds2)) = (digitsVal (d :: ds2) : Int)
        from rfl, ← hn]
      rw [if_neg (by omega)]
    · rw [hdw, stoiAfterSpace, if_pos rfl,
        stoiDigits_span true _ _ hne hdig hrest]
      rw [show signVal true (digitsVal (d :: ds2)) = -(digitsVal (d :: ds2) : Int)
        from rfl, ← hn]
      rw [if_neg (by omega)]

/-! ## `ToJson` layout -/

theorem intercalate_singleton {α : Type} (sep x : List α) :
    List.intercalate sep [x] = x := by
  simp [List.intercalate]

theorem intercalate_cons2 {α : Type} (sep x y : List α) (t : List (List α)) :
    List.intercalate sep (x :: y :: t) = x ++ sep ++ List.intercalate sep (y :: t) := by
  simp [List.intercalate, List.intersperse]

theorem joinFields_eq_intercalate :
    ∀ (st : SMap String), st ≠ [] →
      joinFieldsChars st = List.intercalate [',', '\n']
        (st.map (fun p => ' ' :: ' ' :: dumpFieldChars p)) := by
  intro st
  induction st with
  | nil => intro h; exact absurd rfl h
  | cons p t ih =>
    intro _
    cases t with
    | nil =>
      rw [show joinFieldsChars [p] = ' ' :: ' ' :: dumpFieldChars p from rfl,
        List.map_cons, List.map_nil, intercalate_singleton]
    | cons q ts =>
      rw [show joinFieldsChars (p :: q :: ts) =
        (' ' :: ' ' :: dumpFieldChars p) ++ ',' :: '\n' :: joinFieldsChars (q :: ts)
        from rfl]
      rw [List.map_cons, List.map_cons, intercalate_cons2, ih (by simp)]
      simp

theorem ToJson_layout (st : SMap String) (hne : st ≠ []) :
    (ToJson st).data = lbrace :: '\n' ::
      (List.intercalate [',', '\n']
        (st.map (fun p => ' ' :: ' ' :: dumpFieldChars p)) ++ ['\n', rbrace]) := by
  cases st with
  | nil => exact absurd rfl hne
  | cons p t =>
    rw [show (ToJson (p :: t)).data =
      lbrace :: '\n' :: (joinFieldsChars (p :: t) ++ '\n' :: rbrace :: []) from rfl,
      joinFields_eq_intercalate (p :: t) (by simp)]

/-! ## Definitions taken from the specification's words (for comparison) -/

/-- Modelled from the spec: "if the entire string parses cleanly as a
base-10 integer (optionally signed), emit it as a numeric value" — an
optional single sign followed by one or more digits and nothing else.
Stated from the spec's words, independently of the source's `std::stoi`. -/
def specCleanIntString (s : String) : Bool :=
  match s.data with
  | '-' :: r => decide (r ≠ []) && r.all Char.isDigit
  | '+' :: r => decide (r ≠ []) && r.all Char.isDigit
  | r => decide (r ≠ []) && r.all Char.isDigit

/-! ## The claims -/

/-- Claim C1: for every store state and every input blob, if
`ConfigManager::LoadFromJson` is given a structurally malformed document it
returns `false` and the entries mapping is exactly the same as before the
call — not partially merged and not cleared (`json::parse` throws before
`config_.clear()` runs). -/
theorem c1_malformed_preserves_entries (s : String) (st : SMap String)
    (h : json_parse s = none) : LoadFromJson s st = (false, st) := by
  rw [LoadFromJson, h]

/-- Witness for C1: the malformed blob `"{"` fails and leaves a two-entry
store untouched. -/
theorem c1_witness :
    json_parse "\x7b" = none ∧
    LoadFromJson "\x7b" [("a", "1"), ("b", "2")] = (false, [("a", "1"), ("b", "2")]) :=
  ⟨rfl, c1_malformed_preserves_entries "\x7b" [("a", "1"), ("b", "2")] rfl⟩

/-- Counterexample to C2 as stated: `"123abc"` does not parse cleanly as a
base-10 integer in its entirety (spec-side `specCleanIntString`), yet
`ToJson` emits it as the numeric literal `123`, because `std::stoi` accepts
a digit prefix and ignores the rest; `" 42"` (leading whitespace) is also
emitted numerically. -/
theorem c2_counterexample :
    encodeValue "123abc" = JVal.int 123 ∧
    specCleanIntString "123abc" = false ∧
    ToJson [("k", "123abc")] = "\x7b\n  \"k\": 123\n\x7d" ∧
    specCleanIntString " 42" = false ∧
    encodeValue " 42" = JVal.int 42 :=
  ⟨rfl, rfl, rfl, rfl, rfl⟩

/-- Claim C2 (amended): `ToJson` emits a stored value as a numeric literal
iff `std::stoi` succeeds on it: after optional leading whitespace and an
optional single sign there is at least one digit and the signed value of
the maximal digit prefix fits a 32-bit `int`; the emitted numeral is that
prefix's value and any trailing characters are ignored.  Otherwise the
value is emitted as a quoted string. -/
theorem c2_encode_numeric_iff (v : String) (n : Int) :
    (encodeValue v = JVal.int n ↔ stoi v = some n) ∧
    (encodeValue v = JVal.str v ↔ stoi v = none) ∧
    (stoi v = some n ↔ ∃ ds rest, ds ≠ [] ∧ (∀ c ∈ ds, c.isDigit = true) ∧
      (∀ c, rest.head? = some c → c.isDigit = false) ∧
      ((v.data.dropWhile isCSpace = ds ++ rest ∧ n = (digitsVal ds : Int)) ∨
       (v.data.dropWhile isCSpace = '+' :: (ds ++ rest) ∧ n = (digitsVal ds : Int)) ∨
       (v.data.dropWhile isCSpace = '-' :: (ds ++ rest) ∧
         n = -(digitsVal ds : Int))) ∧
      -2147483648 ≤ n ∧ n ≤ 2147483647) := by
  refine ⟨?_, ?_, stoi_some_iff v n⟩
  · constructor
    · intro h
      cases hs : stoi v with
      | none =>
        rw [encodeValue, hs] at h
        exact JVal.noConfusion h
      | some m =>
        rw [encodeValue, hs] at h
        injection h with hm
        rw [hm]
    · intro h
      rw [encodeValue, h]
  · constructor
    · intro h
      cases hs : stoi v with
      | none => rfl
      | some m =>
        rw [encodeValue, hs] at h
        exact JVal.noConfusion h
    · intro h
      rw [encodeValue, h]

/-- Witness for C2's amended theorem at a concrete value. -/
theorem c2_witness : stoi "123abc" = some 123 :=
  (c2_encode_numeric_iff "123abc" 123).1.mp rfl

/-- Counterexample to C3 as stated: `"007"` is a mapping value consisting
only of decimal digits, yet the `ToJson` / `LoadFromJson` round trip
returns `"7"`, not `"007"` — `std::stoi` canonicalizes the value. -/
theorem c3_counterexample :
    specCleanIntString "007" = true ∧
    LoadFromJson (ToJson [("k", "007")]) [] = (true, [("k", "7")]) ∧
    mapFind "k" (LoadFromJson (ToJson [("k", "007")]) []).2 = some "7" ∧
    (LoadFromJson (ToJson [("k", "007")]) []).2 ≠ [("k", "007")] := by
  refine ⟨rfl, rfl, rfl, ?_⟩
  decide

/-- Claim C3 (amended): for any store whose values are all canonical
decimal integer strings (`std::to_string` of some integer, of any
magnitude), `ToJson` followed by `LoadFromJson` succeeds and reproduces the
very same mapping, whatever the prior store was. -/
theorem c3_roundtrip_canonical (st st' : SMap String) (hs : SortedKeys st)
    (hv : ∀ p ∈ st, ∃ n : Int, p.2 = intToString n) :
    LoadFromJson (ToJson st) st' = (true, st) := by
  cases st with
  | nil =>
    rw [LoadFromJson, json_parse_ToJson_nil]
    rfl
  | cons p t =>
    rw [LoadFromJson, json_parse_ToJson_cons (p :: t) hs (by simp)]
    dsimp only
    rw [decodeItems_encoded (p :: t) hs hv]

/-- Witness for C3's amended theorem: a concrete canonical-integer store
(including one value outside `int` range) survives the round trip. -/
theorem c3_witness :
    LoadFromJson (ToJson [("a", "1"), ("b", "-25"), ("c", "3000000000")])
      [("z", "9")] = (true, [("a", "1"), ("b", "-25"), ("c", "3000000000")]) :=
  c3_roundtrip_canonical _ _ (by decide) (by
    intro p hp
    rcases List.mem_cons.mp hp with h | h
    · exact ⟨1, by rw [h]; rfl⟩
    · rcases List.mem_cons.mp h with h2 | h2
      · exact ⟨-25, by rw [h2]; rfl⟩
      · rcases List.mem_cons.mp h2 with h3 | h3
        · exact ⟨3000000000, by rw [h3]; rfl⟩
        · cases h3)

/-- Counterexample to C4 as stated: the integer value `2147483648` does not
become "its decimal string form" — `value.get<int>()` truncates to 32-bit,
so the stored string is `"-2147483648"`. -/
theorem c4_counterexample :
    LoadFromJson "\x7b\"k\": 2147483648\x7d" [] = (true, [("k", "-2147483648")]) ∧
    (LoadFromJson "\x7b\"k\": 2147483648\x7d" []).2 ≠ [("k", "2147483648")] := by
  refine ⟨rfl, ?_⟩
  decide

/-- Claim C4 (amended): whenever `LoadFromJson` parses its input as an
object, the result replaces the whole map — independently of the prior
state — with exactly the decoded items: strings verbatim, integers as the
decimal string of their value truncated to 32-bit signed (the identity for
values that fit `int`), booleans as `"true"`/`"false"`, and floats, null,
arrays and nested objects silently skipped without failing the parse. -/
theorem c4_load_replaces (s : String) (st : SMap String)
    (flds : List (String × JVal)) (h : json_parse s = some (JVal.obj flds)) :
    LoadFromJson s st = (true, decodeItems (JVal.obj flds)) ∧
    SortedKeys flds ∧
    (∀ k, mapFind k (decodeItems (JVal.obj flds)) =
      (mapFind k flds).bind decodeField?) ∧
    (∀ x : String, decodeField? (JVal.str x) = some x) ∧
    (∀ n : Int, decodeField? (JVal.int n) = some (intToString (toInt32 n))) ∧
    decodeField? (JVal.bool true) = some "true" ∧
    decodeField? (JVal.bool false) = some "false" ∧
    (∀ raw, decodeField? (JVal.num raw) = none) ∧
    decodeField? JVal.null = none ∧
    (∀ ys, decodeField? (JVal.arr ys) = none) ∧
    (∀ gs, decodeField? (JVal.obj gs) = none) := by
  have hsorted := json_parse_obj_sorted h
  exact ⟨by rw [LoadFromJson, h], hsorted,
    fun k => decode_lookup flds hsorted k,
    fun x => rfl, fun n => rfl, rfl, rfl, fun raw => rfl, rfl, fun ys => rfl,
    fun gs => rfl⟩

/-- Witness for C4's amended theorem: load a two-member object (a boolean
and an integer) over a populated store. -/
theorem c4_witness :
    LoadFromJson "\x7b\"b\": true, \"a\": 5\x7d" [("old", "x")] =
      (true, decodeItems (JVal.obj [("a", JVal.int 5), ("b", JVal.bool true)])) ∧
    mapFind "a" (decodeItems (JVal.obj [("a", JVal.int 5), ("b", JVal.bool true)]))
      = some "5" := by
  have hp : json_parse "\x7b\"b\": true, \"a\": 5\x7d" =
      some (JVal.obj [("a", JVal.int 5), ("b", JVal.bool true)]) := rfl
  refine ⟨(c4_load_replaces _ [("old", "x")] _ hp).1, ?_⟩
  rw [(c4_load_replaces "\x7b\"b\": true, \"a\": 5\x7d" [] _ hp).2.2.1 "a"]
  rfl

/-- Claim C5: `GetValue` returns the stored value when the key is present
and the caller's default otherwise; `GetInt` returns the stored value
parsed by `std::stoi`, and silently returns the default whenever the key is
absent or `std::stoi` throws. -/
theorem c5_get_defaults (st : SMap String) (k d : String) (di : Int) :
    (∀ v, mapFind k st = some v → GetValue k d st = v) ∧
    (mapFind k st = none → GetValue k d st = d) ∧
    (mapFind k st = none → GetInt k di st = di) ∧
    (∀ v, mapFind k st = some v → stoi v = none → GetInt k di st = di) ∧
    (∀ v n, mapFind k st = some v → stoi v = some n → GetInt k di st = n) := by
  refine ⟨?_, ?_, ?_, ?_, ?_⟩
  · intro v hv
    rw [GetValue, hv]
  · intro hv
    rw [GetValue, hv]
  · intro hv
    rw [GetInt, hv]
  · intro v hv hs
    rw [GetInt, hv]
    simp [hs]
  · intro v n hv hs
    rw [GetInt, hv]
    simp [hs]

/-- Witness for C5, including the spec's concrete default-fallback cases. -/
theorem c5_witness :
    GetValue "x" "d" [("x", "7"), ("y", "abc")] = "7" ∧
    GetValue "missing_key" "fallback" [] = "fallback" ∧
    GetInt "missing_key" 42 [] = 42 ∧
    GetInt "y" 5 [("x", "7"), ("y", "abc")] = 5 ∧
    GetInt "x" 0 [("x", "7"), ("y", "abc")] = 7 :=
  ⟨(c5_get_defaults [("x", "7"), ("y", "abc")] "x" "d" 0).1 "7" rfl,
   (c5_get_defaults [] "missing_key" "fallback" 0).2.1 rfl,
   (c5_get_defaults [] "missing_key" "" 42).2.2.1 rfl,
   (c5_get_defaults [("x", "7"), ("y", "abc")] "y" "" 5).2.2.2.1 "abc" rfl rfl,
   (c5_get_defaults [("x", "7"), ("y", "abc")] "x" "" 0).2.2.2.2 "7" 7 rfl rfl⟩

/-- One string occurring inside another, split witnesses made explicit. -/
def containsStr (needle hay : String) : Prop := ∃ a b, hay = a ++ needle ++ b

/-- The store of C6's scenario: `setValue("app_name","TestApp")`,
`setInt("max_connections",100)`, `setValue("debug_mode","true")` from an
empty store. -/
def scenarioStore : SMap String :=
  SetValue "debug_mode" "true" (SetInt "max_connections" 100
    (SetValue "app_name" "TestApp" []))

/-- Claim C6: in the concrete scenario the JSON text contains
`"app_name": "TestApp"`, the unquoted numeral `"max_connections": 100`, and
the quoted `"debug_mode": "true"` (the text `true` is not a valid integer
and booleans are not re-inferred on export). -/
theorem c6_scenario :
    containsStr "\"app_name\": \"TestApp\"" (ToJson scenarioStore) ∧
    containsStr "\"max_connections\": 100" (ToJson scenarioStore) ∧
    containsStr "\"debug_mode\": \"true\"" (ToJson scenarioStore) :=
  ⟨⟨"\x7b\n  ",
    ",\n  \"debug_mode\": \"true\",\n  \"max_connections\": 100\n\x7d", by rfl⟩,
   ⟨"\x7b\n  \"app_name\": \"TestApp\",\n  \"debug_mode\": \"true\",\n  ",
    "\n\x7d", by rfl⟩,
   ⟨"\x7b\n  \"app_name\": \"TestApp\",\n  ",
    ",\n  \"max_connections\": 100\n\x7d", by rfl⟩⟩

/-- Claim C7: `ToJson` is deterministic — two stores holding the same
key-to-value mapping (same lookup function) produce character-for-character
identical output — and the output of a nonempty store is the `{`/`}` block
with every member on its own line indented by exactly two spaces, members
separated by `",\n"`. -/
theorem c7_tojson_deterministic (s1 s2 : SMap String) (h1 : SortedKeys s1)
    (h2 : SortedKeys s2) (h : ∀ k, mapFind k s1 = mapFind k s2) :
    ToJson s1 = ToJson s2 ∧
    (s1 = [] ∨ (ToJson s1).data = lbrace :: '\n' ::
      (List.intercalate [',', '\n']
        (s1.map (fun p => ' ' :: ' ' :: dumpFieldChars p)) ++ ['\n', rbrace])) := by
  have heq := sorted_mapFind_ext s1 s2 h1 h2 h
  subst heq
  refine ⟨rfl, ?_⟩
  by_cases hne : s1 = []
  · exact Or.inl hne
  · exact Or.inr (ToJson_layout s1 hne)

/-- Witness for C7: two stores reaching the same mapping through different
insertion orders serialize identically. -/
theorem c7_witness :
    ToJson (mapInsert "b" "2" (mapInsert "a" "1" [])) =
      ToJson (mapInsert "a" "1" (mapInsert "b" "2" [])) :=
  (c7_tojson_deterministic _ _ (by decide) (by decide) (fun k => rfl)).1

/-- Claim C8: on a successful read, `StateManager::LoadFromFile` replaces
the state with the fold of the content's lines; looking a key up afterwards
yields the value of the last line binding it; each line containing at least
one `=` splits at the first `=` (later `=` characters stay in the value),
and a line with no `=` contributes nothing. -/
theorem c8_load_lines (content : String) (st : SMap String) :
    LoadFromFile (some content) st = (true, loadState content) ∧
    (∀ k, mapFind k (loadState content) =
      (((getlines content).filterMap stateLineKV).filter
        (fun p => p.1 = k)).getLast?.map Prod.snd) ∧
    (∀ line : String,
      ('=' ∈ line.data → ∃ pre post, line.data = pre ++ '=' :: post ∧
        '=' ∉ pre ∧ stateLineKV line = some (⟨pre⟩, ⟨post⟩)) ∧
      ('=' ∉ line.data → stateLineKV line = none)) := by
  refine ⟨rfl, ?_, ?_⟩
  · intro k
    rw [loadState, foldInsertOpt_eq_foldl_filterMap, mapFind_foldl_mapInsert]
    cases hl : (((getlines content).filterMap stateLineKV).filter
        (fun p => p.1 = k)).getLast? <;> simp [hl, mapFind]
  · intro line
    constructor
    · intro hm
      obtain ⟨post, hpost⟩ := dropWhile_eq_mem line.data hm
      refine ⟨line.data.takeWhile (fun c => c ≠ '='), post, ?_, ?_, ?_⟩
      · have hsplit := List.takeWhile_append_dropWhile
          (p := fun c => decide (c ≠ '=')) (l := line.data)
        rw [hpost] at hsplit
        exact hsplit.symm
      · intro hc
        have := List.mem_takeWhile_imp hc
        simp at this
      · rw [stateLineKV, hpost]
    · intro hm
      rw [stateLineKV]
      cases hdw : line.data.dropWhile (fun c => decide (c ≠ '=')) with
      | nil => rfl
      | cons c r =>
        exfalso
        have hcm := mem_of_dropWhile_cons hdw
        have hfd := head?_dropWhile_false (fun c => decide (c ≠ '='))
          line.data c (by rw [hdw]; rfl)
        simp only [decide_eq_false_iff_not, Decidable.not_not] at hfd
        rw [hfd] at hcm
        exact hm hcm

/-- Witness for C8: a line with two `=` splits at the first one; duplicate
keys keep the later line's value; lines without `=` are dropped. -/
theorem c8_witness :
    stateLineKV "a=b=c" = some ("a", "b=c") ∧
    mapFind "a" (loadState "a=1\nnoequals\na=2") = some "2" := by
  refine ⟨rfl, ?_⟩
  rw [(c8_load_lines "a=1\nnoequals\na=2" []).2.1 "a"]
  rfl

/-- Claim C9 (implicit): `ToJson` on an empty store returns the
serialization of JSON `null` — the four characters `null`, not `{}` — and
feeding that text back to `LoadFromJson` succeeds with an empty store,
whatever the prior state. -/
theorem c9_empty_dump_null :
    ToJson [] = "null" ∧ ToJson [] ≠ "\x7b\x7d" ∧
    ∀ st : SMap String, LoadFromJson "null" st = (true, []) :=
  ⟨rfl, by decide, fun st => rfl⟩

/-- Claim C10 (implicit): `LoadFromJson` does not require the top level to
be an object: any well-formed blob whose top level is an array or a scalar
loads with `true` and discards every prior entry; array elements are stored
under their decimal index as key (supported kinds only), an integer scalar
under the empty-string key (truncated to 32-bit like any integer), a
boolean or string scalar likewise under `""`, and a float scalar leaves the
store empty. -/
theorem c10_nonobject_top (s : String) (st : SMap String) :
    (∀ xs, json_parse s = some (JVal.arr xs) →
      LoadFromJson s st = (true, decodeItems (JVal.arr xs)) ∧
      ∀ i (h : i < xs.length),
        mapFind (natToString i) (decodeItems (JVal.arr xs)) =
          decodeField? (xs.get ⟨i, h⟩)) ∧
    (∀ n : Int, json_parse s = some (JVal.int n) →
      LoadFromJson s st = (true, [("", intToString (toInt32 n))])) ∧
    (∀ b, json_parse s = some (JVal.bool b) →
      LoadFromJson s st = (true, [("", if b then "true" else "false")])) ∧
    (∀ v, json_parse s = some (JVal.str v) →
      LoadFromJson s st = (true, [("", v)])) ∧
    (∀ raw, json_parse s = some (JVal.num raw) →
      LoadFromJson s st = (true, [])) := by
  refine ⟨?_, ?_, ?_, ?_, ?_⟩
  · intro xs h
    exact ⟨by rw [LoadFromJson, h], fun i hi => decodeItems_arr_lookup xs i hi⟩
  · intro n h
    rw [LoadFromJson, h]
    rfl
  · intro b h
    rw [LoadFromJson, h]
    cases b <;> rfl
  · intro v h
    rw [LoadFromJson, h]
    rfl
  · intro raw h
    rw [LoadFromJson, h]
    rfl

/-- Witness for C10: a heterogeneous array and an integer scalar. -/
theorem c10_witness :
    LoadFromJson "[10, \"ab\", true, 2.5]" [("zz", "9")] =
      (true, decodeItems (JVal.arr
        [JVal.int 10, JVal.str "ab", JVal.bool true, JVal.num "2.5"])) ∧
    mapFind "0" (decodeItems (JVal.arr
      [JVal.int 10, JVal.str "ab", JVal.bool true, JVal.num "2.5"])) = some "10" ∧
    LoadFromJson "7" [("a", "b")] = (true, [("", "7")]) := by
  have hp : json_parse "[10, \"ab\", true, 2.5]" = some (JVal.arr
      [JVal.int 10, JVal.str "ab", JVal.bool true, JVal.num "2.5"]) := rfl
  have hp7 : json_parse "7" = some (JVal.int 7) := rfl
  refine ⟨((c10_nonobject_top _ _).1 _ hp).1, ?_,
    (c10_nonobject_top "7" [("a", "b")]).2.1 7 hp7⟩
  exact ((c10_nonobject_top "[10, \"ab\", true, 2.5]" [("zz", "9")]).1 _ hp).2
    0 (by decide)
